import Mathlib

/-!
# goui: the element tree of `goui.go`

A shallow embedding of the `UIObject` node of package `goui` and of the operations on its
children (`AddChild`, `AddChildren`, `SetChildOrder`, `GetChildById`, `SearchChildrenById`,
`ChildrenByOrder`, `ChildCount`).

Modelling conventions.

* A `*UIObject` is an index into a heap of node records.  An index past the end of the heap
  stands for the nil pointer: dereferencing it is a run-time panic.
* A function that can panic (or, for the recursive search, not return) yields an `Option`;
  `none` means that the Go call does not return normally.
* A Go `map[string]T` is an association list with pairwise distinct keys.  The order of the
  list is the order in which `range` visits the entries in the run under consideration; Go
  leaves that order unspecified, so statements that depend on it are made for every
  permutation of the entries.
* A `container/list` list of `*UIObject` values is a `List Ptr`; a `*list.Element` is a
  position in it (`none` is the nil element).
* The number drawn by `rand.Intn` is a parameter of the operation that draws it.
-/

namespace goui

/-- A pointer to a `UIObject`: an index into the heap. -/
abbrev Ptr := Nat

/-- The type `AttributeMap`, a `map[string]string`. -/
abbrev AttributeMap := List (String × String)

/-- The struct `UIObject` as built by `NewElement` (both maps and the list allocated). -/
structure UIObject where
  text : String
  id : String
  «class» : String
  attrs : AttributeMap
  contentType : String
  children : List (String × Ptr)
  childOrder : List Ptr
deriving DecidableEq, Repr

/-- The memory: the `UIObject` records allocated so far, addressed by position. -/
abbrev Heap := List UIObject

/-- The map assignment `m[k] = v`: replaces the value of an existing key, adds a new entry otherwise. -/
def mapSet {β : Type} (m : List (String × β)) (k : String) (v : β) : List (String × β) :=
  if m.any (fun e => e.1 = k) then m.map (fun e => if e.1 = k then (k, v) else e)
  else m ++ [(k, v)]

/-- The key set of a map. -/
def mapKeys {β : Type} (m : List (String × β)) : List String := m.map Prod.fst

/-- The keyed lookup `m[k]` (with the comma-ok result as an `Option`). -/
def mapGet {β : Type} (m : List (String × β)) (k : String) : Option β :=
  (m.find? (fun e => e.1 = k)).map Prod.snd

/-- `NewElement`: allocates a node with empty children; returns the new heap and the pointer. -/
def NewElement (h : Heap) (cType id className text : String) : Heap × Ptr :=
  (h ++ [{ text := text, id := id, «class» := className, attrs := [], contentType := cType,
           children := [], childOrder := [] }], h.length)

/-- The method `Id` (value receiver). -/
def UIObject.Id (he : UIObject) : String := he.id

/-- The method `ContentType`. -/
def ContentType (h : Heap) (he : Ptr) : Option String := (h[he]?).map (fun o => o.contentType)

/-- The method `SetId`. -/
def SetId (h : Heap) (he : Ptr) (i : String) : Option Heap :=
  match h[he]? with
  | none => none
  | some o => some (h.set he { o with id := i })

/-- The method `SetText`. -/
def SetText (h : Heap) (he : Ptr) (t : String) : Option Heap :=
  match h[he]? with
  | none => none
  | some o => some (h.set he { o with text := t })

/-- The method `SetContentType`. -/
def SetContentType (h : Heap) (he : Ptr) (s : String) : Option Heap :=
  match h[he]? with
  | none => none
  | some o => some (h.set he { o with contentType := s })

/-- The function `generateId`: `fmt.Sprintf("%s#%d", prefix, rand.Intn(max))`, where `r` is the
raw draw of the random source, so that `rand.Intn(max)` is `r % max`; `rand.Intn` panics for
`max <= 0`. -/
def generateId (pre : String) (max : Nat) (r : Nat) : Option String :=
  if max = 0 then none else some (pre ++ "#" ++ toString (r % max))

/-- The method `AddChild`; `r` is the draw of the random source, used only when the child has
no identity. -/
def AddChild (h : Heap) (he ui : Ptr) (r : Nat) : Option Heap := do
  let u ← h[ui]?
  let h1 ← (if u.Id.length = 0 then do
              let ct ← ContentType h ui
              let g ← generateId ct 100 r
              SetId h ui g
            else some h)
  let u1 ← h1[ui]?
  let o ← h1[he]?
  some (h1.set he { o with children := mapSet o.children u1.Id ui,
                           childOrder := o.childOrder ++ [ui] })

/-- The method `AddChildren`; `rs` holds one draw of the random source for each child. -/
def AddChildren (h : Heap) (he : Ptr) : List Ptr → List Nat → Option Heap
  | [], _ => some h
  | v :: vs, rs => do
      let h1 ← AddChild h he v (rs.headD 0)
      AddChildren h1 he vs rs.tail

/-- The method `ChildCount`: `len(he.children)`. -/
def ChildCount (h : Heap) (he : Ptr) : Option Nat := (h[he]?).map (fun o => o.children.length)

/-- The method `ChildrenByOrder`: the values of `childOrder`, front to back. -/
def ChildrenByOrder (h : Heap) (he : Ptr) : Option (List Ptr) := (h[he]?).map (fun o => o.childOrder)

/-- The loop of `GetChildById` over the entries of the children map, in the order `range`
visits them. -/
def GetChildById.range (h : Heap) (id : String) : List (String × Ptr) → Option (Option Ptr)
  | [] => some none
  | (_, k) :: rest => do
      let o ← h[k]?
      if o.Id = id then some (some k) else GetChildById.range h id rest

/-- The method `GetChildById`; the inner `none` is the nil result. -/
def GetChildById (h : Heap) (uio : Ptr) (id : String) : Option (Option Ptr) := do
  let o ← h[uio]?
  GetChildById.range h id o.children

/-- The loop of `SearchChildrenById` over the children map; `search` is the recursive call. -/
def SearchChildrenById.range (search : Ptr → Option (Option Ptr)) :
    List (String × Ptr) → Option (Option Ptr)
  | [] => some none
  | (_, c) :: rest => do
      let x ← search c
      match x with
      | some q => some (some q)
      | none => SearchChildrenById.range search rest

/-- The method `SearchChildrenById`.  `fuel` bounds the depth of the recursion: the outer
`none` is a call that does not return (nil dereference, or recursion deeper than `fuel`),
the inner `none` is the nil result. -/
def SearchChildrenById : Nat → Heap → Ptr → String → Option (Option Ptr)
  | 0, _, _, _ => none
  | fuel + 1, h, uio, id => do
      let o ← h[uio]?
      if o.Id = id then some (some uio)
      else SearchChildrenById.range (fun c => SearchChildrenById fuel h c id) o.children

/-- The method `Remove` of `container/list` for an element of the list (given by position). -/
def listRemove (l : List Ptr) (i : Nat) : List Ptr := l.eraseIdx i

/-- The method `InsertBefore` of `container/list`: inserts `v` before position `j`. -/
def listInsertBefore (l : List Ptr) (v : Ptr) (j : Nat) : List Ptr := l.take j ++ v :: l.drop j

/-- The loop of `SetChildOrder`.  The element `x` is the head of `rest`, at position `i` of
the list (`x == nil` when `rest` is empty); `obj` and `mark` are positions.  The loop
condition is `x != nil || (obj != nil && mark != nil)`; the result is `(x, obj, mark)` at
loop exit, `none` when the body dereferences a nil `x`. -/
def SetChildOrder.loop (h : Heap) (thisId beforeId : String) :
    List Ptr → Nat → Option Nat → Option Nat → Option (Option Nat × Option Nat × Option Nat)
  | [], _, obj, mark =>
      if obj.isSome && mark.isSome then none
      else some (none, obj, mark)
  | v :: rest, i, obj, mark => do
      let o ← h[v]?
      let obj1 := if o.Id = thisId then some i else obj
      let mark1 := if o.Id = beforeId then some i else mark
      SetChildOrder.loop h thisId beforeId rest (i + 1) obj1 mark1

/-- The method `SetChildOrder`.  After the loop, when both elements were found,
`Remove(x)` and `InsertBefore(x.Value, mark)` are applied to the loop variable `x`;
both dereference `x`, so a nil `x` panics. -/
def SetChildOrder (h : Heap) (he : Ptr) (thisId beforeId : String) : Option Heap := do
  let o ← h[he]?
  let (x, obj, mark) ← SetChildOrder.loop h thisId beforeId o.childOrder 0 none none
  if obj.isSome && mark.isSome then
    match x, mark with
    | some i, some j => do
        let v ← o.childOrder[i]?
        let l1 := listRemove o.childOrder i
        let l2 := if j = i then l1
                  else if i < j then listInsertBefore l1 v (j - 1)
                  else listInsertBefore l1 v j
        some (h.set he { o with childOrder := l2 })
    | _, _ => none
  else some h

/-- The method `AddAttribute`: `he.attrs[attName] = attValue`. -/
def AddAttribute (h : Heap) (he : Ptr) (attName attValue : String) : Option Heap :=
  match h[he]? with
  | none => none
  | some o => some (h.set he { o with attrs := mapSet o.attrs attName attValue })

/-- The method `AddAttributeMap`: one assignment `he.attrs[k] = v` for each entry of `a`. -/
def AddAttributeMap (h : Heap) (he : Ptr) : AttributeMap → Option Heap
  | [] => some h
  | (k, v) :: rest => do
      let h1 ← AddAttribute h he k v
      AddAttributeMap h1 he rest

/-- The struct `elementStruct`, the decoded form of a JSON element document. -/
inductive elementStruct where
  | mk (Text Id Etype ClassName : String) (Attributes : AttributeMap)
      (Children : List elementStruct) : elementStruct

/-- Field `Text` of `elementStruct`. -/
def elementStruct.Text : elementStruct → String
  | .mk t _ _ _ _ _ => t

/-- Field `Id` of `elementStruct`. -/
def elementStruct.Id : elementStruct → String
  | .mk _ i _ _ _ _ => i

/-- Field `Etype` of `elementStruct`. -/
def elementStruct.Etype : elementStruct → String
  | .mk _ _ e _ _ _ => e

/-- Field `ClassName` of `elementStruct`. -/
def elementStruct.ClassName : elementStruct → String
  | .mk _ _ _ c _ _ => c

/-- Field `Attributes` of `elementStruct`. -/
def elementStruct.Attributes : elementStruct → AttributeMap
  | .mk _ _ _ _ a _ => a

/-- Field `Children` of `elementStruct`. -/
def elementStruct.Children : elementStruct → List elementStruct
  | .mk _ _ _ _ _ c => c

/-- The loop `for _, v := range eBuf.Children` of `NewElementFromJSON`: each child document
becomes a new node that is added to `uio`; `rs` holds one draw of the random source for each
child. -/
def NewElementFromJSON.children (h : Heap) (uio : Ptr) :
    List elementStruct → List Nat → Option Heap
  | [], _ => some h
  | v :: vs, rs => do
      let h1 ← AddAttributeMap (NewElement h v.Etype v.Id v.ClassName v.Text).1
                  (NewElement h v.Etype v.Id v.ClassName v.Text).2 v.Attributes
      let h2 ← AddChild h1 uio (NewElement h v.Etype v.Id v.ClassName v.Text).2 (rs.headD 0)
      NewElementFromJSON.children h2 uio vs rs.tail

/-- The function `NewElementFromJSON`.  `unmarshal` stands for `json.Unmarshal` into an
`elementStruct` (`none` when it reports an error).  The result is the new heap and the
returned pointer, `none` for the pair `nil, err`. -/
def NewElementFromJSON (unmarshal : String → Option elementStruct) (h : Heap) (s : String)
    (rs : List Nat) : Option (Heap × Option Ptr) :=
  match unmarshal s with
  | none => some (h, none)
  | some eBuf => do
      let h1 ← AddAttributeMap (NewElement h eBuf.Etype eBuf.Id eBuf.ClassName eBuf.Text).1
                  (NewElement h eBuf.Etype eBuf.Id eBuf.ClassName eBuf.Text).2 eBuf.Attributes
      let h2 ← NewElementFromJSON.children h1
                  (NewElement h eBuf.Etype eBuf.Id eBuf.ClassName eBuf.Text).2 eBuf.Children rs
      some (h2, some (NewElement h eBuf.Etype eBuf.Id eBuf.ClassName eBuf.Text).2)

/-- The node that `NewElementFromJSON` builds for one document:
`NewElement(v.Etype, v.Id, v.ClassName, v.Text).AddAttributeMap(v.Attributes)`. -/
def docNode (v : elementStruct) : UIObject :=
  { text := v.Text, id := v.Id, «class» := v.ClassName,
    attrs := v.Attributes.foldl (fun m e => mapSet m e.1 e.2) [],
    contentType := v.Etype, children := [], childOrder := [] }

/-- The identity of the node behind a pointer (`none` for the nil pointer). -/
def idOf (h : Heap) (p : Ptr) : Option String := (h[p]?).map UIObject.Id

/-- Every pointer of the list is non-nil. -/
def NonNil (h : Heap) (ps : List Ptr) : Prop := ∀ p ∈ ps, p < h.length

instance (h : Heap) (ps : List Ptr) : Decidable (NonNil h ps) := by
  unfold NonNil
  infer_instance

/-- The node q belongs to the subtree of p: it is p itself or is reached from p through the
children lookups. -/
inductive Desc (h : Heap) : Ptr → Ptr → Prop
  | self (p : Ptr) : Desc h p p
  | child (p : Ptr) (o : UIObject) (e : String × Ptr) (q : Ptr) :
      h[p]? = some o → e ∈ o.children → Desc h e.2 q → Desc h p q

/-- The nodes reachable from p through the children lookups form a finite tree of depth at
most n, all of whose nodes are allocated (no nil child, no cycle). -/
def isTree (h : Heap) : Nat → Ptr → Bool
  | 0, _ => false
  | n + 1, p =>
      match h[p]? with
      | none => false
      | some o => o.children.all (fun e => isTree h n e.2)

/-- The identity a child record carries after `AddChild`: the generated one when it had none. -/
def newId (u : UIObject) (r : Nat) : String :=
  if u.Id.length = 0 then u.contentType ++ "#" ++ toString (r % 100) else u.Id

/-- An `AddChild` that adds a new key: receiver and child are allocated and no child is
stored under the identity that the child carries after the call. -/
def FreshAdd (h : Heap) (he ui : Ptr) (r : Nat) : Prop :=
  ∃ o u, h[he]? = some o ∧ h[ui]? = some u ∧ newId u r ∉ mapKeys o.children

/-- An `AddChildren` each of whose `AddChild` calls adds a new key. -/
def FreshAdds (h : Heap) (he : Ptr) : List Ptr → List Nat → Prop
  | [], _ => True
  | v :: vs, rs =>
      FreshAdd h he v (rs.headD 0) ∧
        ∀ h1, AddChild h he v (rs.headD 0) = some h1 → FreshAdds h1 he vs rs.tail

/-- The identities that the nodes built from a list of child documents carry once added
(the document's id, or the generated one when it is empty). -/
def docIds : List elementStruct → List Nat → List String
  | [], _ => []
  | v :: vs, rs =>
      (if v.Id.length = 0 then v.Etype ++ "#" ++ toString (rs.headD 0 % 100) else v.Id) ::
        docIds vs rs.tail

/-- The node q is not stored in the children lookup of any node. -/
def NotAChild (h : Heap) (q : Ptr) : Prop :=
  ∀ (p : Ptr) (o : UIObject), h[p]? = some o → q ∉ o.children.map Prod.snd

/-- The heaps built by the public operations, where every `AddChild` (alone, within
`AddChildren` or within `NewElementFromJSON`) adds a new key and `SetId` is applied only to
a node that is not stored as a child.  The constructor `fields` stands for the setters that
write only `text`, `class`, `attrs` or `contentType` (`SetText`, `SetContentType`,
`AddCssClass`, `RemoveCssClass`, `AddAttribute`, `AddAttributeMap`, `RemoveAttribute`). -/
inductive Reach : Heap → Prop
  | empty : Reach []
  | newElement (h : Heap) (cType id className text : String) :
      Reach h → Reach (NewElement h cType id className text).1
  | fromJSON (unmarshal : String → Option elementStruct) (h : Heap) (s : String)
      (rs : List Nat) (h' : Heap) (p : Option Ptr) :
      Reach h → (∀ eBuf, unmarshal s = some eBuf → (docIds eBuf.Children rs).Nodup) →
      NewElementFromJSON unmarshal h s rs = some (h', p) → Reach h'
  | addChild (h : Heap) (he ui : Ptr) (r : Nat) (h' : Heap) :
      Reach h → FreshAdd h he ui r → AddChild h he ui r = some h' → Reach h'
  | addChildren (h : Heap) (he : Ptr) (ui : List Ptr) (rs : List Nat) (h' : Heap) :
      Reach h → FreshAdds h he ui rs → AddChildren h he ui rs = some h' → Reach h'
  | setChildOrder (h : Heap) (he : Ptr) (thisId beforeId : String) (h' : Heap) :
      Reach h → SetChildOrder h he thisId beforeId = some h' → Reach h'
  | setId (h : Heap) (he : Ptr) (i : String) (h' : Heap) :
      Reach h → NotAChild h he → SetId h he i = some h' → Reach h'
  | setText (h : Heap) (he : Ptr) (t : String) (h' : Heap) :
      Reach h → SetText h he t = some h' → Reach h'
  | setContentType (h : Heap) (he : Ptr) (t : String) (h' : Heap) :
      Reach h → SetContentType h he t = some h' → Reach h'
  | addAttributeMap (h : Heap) (he : Ptr) (a : AttributeMap) (h' : Heap) :
      Reach h → AddAttributeMap h he a = some h' → Reach h'
  | fields (h : Heap) (q : Ptr) (o : UIObject) (t c : String) (a : AttributeMap)
      (ct : String) :
      Reach h → h[q]? = some o →
      Reach (h.set q { o with text := t, «class» := c, attrs := a, contentType := ct })

/-- The relation between the order list and the children lookup, for every node of the heap:
the keys are distinct, the order list holds exactly the stored children, and every child is
stored under its own, non-empty, identity. -/
def Inv (h : Heap) : Prop :=
  ∀ (p : Ptr) (o : UIObject), h[p]? = some o →
    (mapKeys o.children).Nodup ∧ (o.children.map Prod.snd).Perm o.childOrder ∧
    (∀ e ∈ o.children, idOf h e.2 = some e.1 ∧ e.1.length ≠ 0)

/-- Two heaps hold the same nodes up to the fields `text`, `class` and `attrs`. -/
def SameShape (h h' : Heap) : Prop :=
  ∀ q : Ptr, (h'[q]?).map (fun o => (o.id, o.contentType, o.children, o.childOrder)) =
    (h[q]?).map (fun o => (o.id, o.contentType, o.children, o.childOrder))

/-! ## Example heaps -/

/-- A heap with one node: `NewElement("panel", "p", "", "")`. -/
def h0 : Heap := (NewElement [] "panel" "p" "" "").1

/-- The heap `h0` and the node `NewElement("item", "c1", "", "A")`. -/
def h1 : Heap := (NewElement h0 "item" "c1" "" "A").1

/-- The heap `h1` and the node `NewElement("item", "c2", "", "B")`: three unrelated nodes. -/
def h2 : Heap := (NewElement h1 "item" "c2" "" "B").1

/-- Three nodes "p", "a", "a" (pointers 0, 1, 2) after `p.AddChild` of the first "a". -/
def dupHeap : Heap :=
  let g0 := (NewElement [] "panel" "p" "" "").1
  let g1 := (NewElement g0 "item" "a" "" "first").1
  let g2 := (NewElement g1 "item" "a" "" "second").1
  (AddChild g2 0 1 0).getD []

/-- The node "p" of `h2` after `AddChildren` of "c1" and "c2" (pointers 1 and 2). -/
def twoKids : Heap := (AddChildren h2 0 [1, 2] []).getD []

/-- The heap `h2` after `AddChild` of "c1" to "p". -/
def oneOfTwo : Heap := (AddChild h2 0 1 0).getD []

/-- The node "p" of `h1` after `AddChild` of "c1" (pointer 1). -/
def oneKid : Heap := (AddChild h1 0 1 0).getD []

/-- Nodes "p", "x", "y" (pointers 0, 1, 2) after `p.AddChild(x)` and then `x.SetId("y")`. -/
def staleHeap : Heap :=
  let g0 := (NewElement [] "panel" "p" "" "").1
  let g1 := (NewElement g0 "item" "x" "" "first").1
  let g2 := (NewElement g1 "item" "y" "" "second").1
  (((AddChild g2 0 1 0).bind (fun g => SetId g 1 "y"))).getD []

/-- The chain root → A → B (pointers 0, 1, 2), built with `NewElement` and `AddChild`. -/
def chainHeap : Heap :=
  let g0 := (NewElement [] "panel" "root" "" "").1
  let g1 := (NewElement g0 "item" "A" "" "").1
  let g2 := (NewElement g1 "item" "B" "" "").1
  ((AddChild g2 0 1 0).bind (fun g => AddChild g 1 2 0)).getD []

/-! ## Class strings and attributes

The functions of package `strings` that `goui.go` calls are modelled on the list of
characters of a string. -/

/-- The predicate `unicode.IsSpace`: the code points with the Unicode White_Space property. -/
def isSpace (c : Char) : Bool :=
  (9 ≤ c.toNat && c.toNat ≤ 13) || c.toNat = 32 || c.toNat = 133 || c.toNat = 160 ||
  c.toNat = 5760 || (8192 ≤ c.toNat && c.toNat ≤ 8202) || c.toNat = 8232 || c.toNat = 8233 ||
  c.toNat = 8239 || c.toNat = 8287 || c.toNat = 12288

/-- The function `strings.TrimSpace`: all leading and trailing white space removed. -/
def TrimSpace (s : String) : String :=
  String.mk ((s.data.dropWhile isSpace).rdropWhile isSpace)

/-- Substring test on character lists: `sub` starts at some position of the list. -/
def containsL (sub : List Char) : List Char → Bool
  | [] => sub.isPrefixOf []
  | c :: cs => sub.isPrefixOf (c :: cs) || containsL sub cs

/-- The function `strings.Contains`. -/
def Contains (s substr : String) : Bool := containsL substr.data s.data

/-- The scan of `strings.Replace` for a non-empty `old` and no limit: left to right, each
occurrence of `old` found at the current position is replaced by `new` and skipped.  `skip`
counts the characters of a matched occurrence that are still to be passed over. -/
def replaceL (old new : List Char) : Nat → List Char → List Char
  | _, [] => []
  | skip + 1, _ :: cs => replaceL old new skip cs
  | 0, c :: cs =>
      if old.isPrefixOf (c :: cs) then new ++ replaceL old new (old.length - 1) cs
      else c :: replaceL old new 0 cs

/-- The function `strings.Replace(s, old, new, -1)` (a negative count: no limit on the
number of replacements).  An empty `old` matches before every character and at the end. -/
def Replace (s old new : String) : String :=
  if old.data = [] then String.mk (new.data ++ s.data.flatMap (fun c => c :: new.data))
  else String.mk (replaceL old.data new.data 0 s.data)

/-- Every occurrence of `old` in the list starts where `ok` holds: at the first position when
the flag is set, or directly after a white-space character. -/
def leftDelimited (old : List Char) : Bool → List Char → Bool
  | _, [] => true
  | ok, c :: cs => (!(old.isPrefixOf (c :: cs)) || ok) && leftDelimited old (isSpace c) cs

/-- The method `Class` (value receiver). -/
def UIObject.Class (he : UIObject) : String := he.«class»

/-- The method `Text` (value receiver). -/
def UIObject.Text (he : UIObject) : String := he.text

/-- The method `AddCssClass`. -/
def AddCssClass (h : Heap) (he : Ptr) (className : String) : Option Heap :=
  match h[he]? with
  | none => none
  | some o =>
      if !Contains o.«class» className then
        some (h.set he { o with «class» := TrimSpace o.«class» ++ " " ++ TrimSpace className })
      else some h

/-- The method `RemoveCssClass`. -/
def RemoveCssClass (h : Heap) (he : Ptr) (className : String) : Option Heap :=
  match h[he]? with
  | none => none
  | some o =>
      some (h.set he { o with «class» := TrimSpace (Replace o.«class» (TrimSpace className) "") })

/-- The class string of the node behind a pointer. -/
def classOf (h : Heap) (p : Ptr) : Option String := (h[p]?).map UIObject.Class

/-- The statement `delete(m, k)`. -/
def mapDelete {β : Type} (m : List (String × β)) (k : String) : List (String × β) :=
  m.filter (fun e => !decide (e.1 = k))

/-- The method `GetAttribute`. -/
def GetAttribute (h : Heap) (he : Ptr) (attrName : String) : Option String :=
  match h[he]? with
  | none => none
  | some o =>
      match mapGet o.attrs attrName with
      | some x => some x
      | none => some ""

/-- The method `RemoveAttribute`: `delete(he.attrs, attName)`. -/
def RemoveAttribute (h : Heap) (he : Ptr) (attName : String) : Option Heap :=
  match h[he]? with
  | none => none
  | some o => some (h.set he { o with attrs := mapDelete o.attrs attName })

/-- The double quote character as a string. -/
def quote : String := String.singleton (Char.ofNat 34)

/-- The method `String` of `AttributeMap`: for each entry, in the order `range` visits them,
a space, the key, an equals sign and the quoted value are appended. -/
def AttributeMap_String (attr : AttributeMap) : String :=
  attr.foldl (fun x e => x ++ " " ++ e.1 ++ ("=" ++ quote) ++ e.2 ++ quote) ""

/-- The method `Attributes`. -/
def Attributes (h : Heap) (he : Ptr) : Option String :=
  (h[he]?).map (fun o => AttributeMap_String o.attrs)

/-- The attribute map of the node behind a pointer. -/
def attrsOf (h : Heap) (p : Ptr) : Option AttributeMap := (h[p]?).map (fun o => o.attrs)

/-- The element of the tests, `NewElement("test", "test1", "strong", "text")`, alone in the
heap. -/
def testHeap : Heap := (NewElement [] "test" "test1" "strong" "text").1

/-- The element of the tests after `AddAttribute("href", "value1")`. -/
def hrefHeap : Heap := (AddAttribute testHeap 0 "href" "value1").getD []

/-- The element of the tests after `AddAttribute("dir", "ltr")`. -/
def dirHeap : Heap := (AddAttribute testHeap 0 "dir" "ltr").getD []

/-- A node whose class string is "aabb", alone in the heap. -/
def aabbHeap : Heap := (NewElement [] "test" "t" "aabb" "").1

/-- The element of the tests after `AddCssClass("weak")`: its class is "strong weak". -/
def weakHeap : Heap := (AddCssClass testHeap 0 "weak").getD []

/-- The decoded form of the spec's document: "p" with the children "c1" (text "A") and
"c2" (text "B"). -/
def specDoc : elementStruct :=
  .mk "" "p" "panel" "" [] [.mk "A" "c1" "item" "" [] [], .mk "B" "c2" "item" "" [] []]

/-- The decoded form of a document root → child → grandchild. -/
def nestedDoc : elementStruct :=
  .mk "" "root" "panel" "" []
    [.mk "" "child" "item" "" [] [.mk "" "grandchild" "item" "" [] []]]

/-! ## Further operations and example data -/

/-- The loop of `GetContentByType` over the order list: `x` is the slice built so far. -/
def GetContentByType.loop (h : Heap) (t : String) : List Ptr → List Ptr → Option (List Ptr)
  | x, [] => some x
  | x, l :: rest => do
      let o ← h[l]?
      GetContentByType.loop h t (if o.contentType = t then x ++ [l] else x) rest

/-- The method `GetContentByType`. -/
def GetContentByType (h : Heap) (he : Ptr) (t : String) : Option (List Ptr) := do
  let o ← h[he]?
  GetContentByType.loop h t [] o.childOrder

/-- The node "p" and a node of type "item" without identity (pointers 0 and 1). -/
def noIdHeap : Heap :=
  (NewElement (NewElement [] "panel" "p" "" "").1 "item" "" "" "").1

/-- A node "a" whose only child also carries the identity "a" (pointers 0 and 1). -/
def sameIdHeap : Heap :=
  (AddChild (NewElement (NewElement [] "panel" "a" "" "").1 "item" "a" "" "").1 0 1 0).getD []

/-- The decoded form of the empty document: every field is the zero value. -/
def emptyDoc : elementStruct := .mk "" "" "" "" [] []

/-- A node whose class string is " x ", with white space on both sides, alone in the heap. -/
def paddedHeap : Heap := (NewElement [] "test" "t" " x " "").1

/-- The heaps built from `NewElement` and `NewElementFromJSON` by `AddChild` and
`AddChildren`, with no condition on the identities of the children (they may repeat). -/
inductive Built : Heap → Prop
  | empty : Built []
  | newElement (h : Heap) (cType id className text : String) :
      Built h → Built (NewElement h cType id className text).1
  | fromJSON (unmarshal : String → Option elementStruct) (h : Heap) (s : String)
      (rs : List Nat) (h' : Heap) (p : Option Ptr) :
      Built h → NewElementFromJSON unmarshal h s rs = some (h', p) → Built h'
  | addChild (h : Heap) (he ui : Ptr) (r : Nat) (h' : Heap) :
      Built h → AddChild h he ui r = some h' → Built h'
  | addChildren (h : Heap) (he : Ptr) (ui : List Ptr) (rs : List Nat) (h' : Heap) :
      Built h → AddChildren h he ui rs = some h' → Built h'

/-- The relation between lookup and order list that holds also when identities repeat: the
keys are distinct, every child is stored under its own, non-empty, identity and occurs in
the order list, and every node of the order list carries an identity that is a key. -/
def BInv (h : Heap) : Prop :=
  ∀ (p : Ptr) (o : UIObject), h[p]? = some o →
    (mapKeys o.children).Nodup ∧
    (∀ e ∈ o.children, idOf h e.2 = some e.1 ∧ e.1.length ≠ 0 ∧ e.2 ∈ o.childOrder) ∧
    (∀ c ∈ o.childOrder, ∃ k ∈ mapKeys o.children, idOf h c = some k)

/-- The heap `dupHeap` after `AddChild` of the second node "a": order "a", "a", one key. -/
def dupTwice : Heap := (AddChild dupHeap 0 2 0).getD []

/-! ## Heap lemmas -/

theorem lt_of_get {h : Heap} {p : Ptr} {o : UIObject} (hp : h[p]? = some o) : p < h.length := by
  rcases List.getElem?_eq_some.1 hp with ⟨hlt, _⟩
  exact hlt

theorem set_self_eq (h : Heap) (p : Ptr) (o : UIObject) (hp : h[p]? = some o) : h.set p o = h := by
  apply List.ext_getElem?
  intro j
  by_cases hj : p = j
  · subst hj
    simp [List.getElem?_set, lt_of_get hp, hp]
  · simp [List.getElem?_set, hj]

theorem AddChild_eq (h : Heap) (he ui : Ptr) (r : Nat) (o u : UIObject)
    (hp : h[he]? = some o) (hc : h[ui]? = some u) :
    AddChild h he ui r =
      some ((h.set ui { u with id := newId u r }).set he
        { (if he = ui then { u with id := newId u r } else o) with
            children := mapSet o.children (newId u r) ui,
            childOrder := o.childOrder ++ [ui] }) := by
  have hlt := lt_of_get hc
  by_cases hz : u.id.length = 0
  · by_cases hew : he = ui
    · subst hew
      rw [hp] at hc
      cases hc
      simp [AddChild, hp, hz, ContentType, generateId, SetId, newId, List.getElem?_set, hlt,
        UIObject.Id]
    · have hew2 : ¬ ui = he := fun e => hew e.symm
      simp [AddChild, hp, hc, hz, ContentType, generateId, SetId, newId, List.getElem?_set, hlt,
        UIObject.Id, hew, hew2]
  · have hu : ({ u with id := newId u r } : UIObject) = u := by
      simp [newId, UIObject.Id, hz]
    rw [hu, set_self_eq h ui u hc]
    by_cases hew : he = ui
    · subst hew
      rw [hp] at hc
      cases hc
      simp [AddChild, hp, hz, newId, UIObject.Id]
    · simp [AddChild, hp, hc, hz, newId, hew, UIObject.Id]

theorem any_key_iff {β : Type} (m : List (String × β)) (k : String) :
    (m.any (fun e => decide (e.1 = k))) = true ↔ k ∈ mapKeys m := by
  simp [mapKeys]

theorem mapSet_length {β : Type} (m : List (String × β)) (k : String) (v : β) :
    (mapSet m k v).length = if k ∈ mapKeys m then m.length else m.length + 1 := by
  unfold mapSet
  by_cases hk : k ∈ mapKeys m
  · simp [(any_key_iff m k).2 hk, hk]
  · have : ¬ (m.any (fun e => decide (e.1 = k))) = true := fun hh => hk ((any_key_iff m k).1 hh)
    simp [this, hk]

theorem AddChild_get_self (h : Heap) (he ui : Ptr) (r : Nat) (o u : UIObject)
    (hp : h[he]? = some o) (hc : h[ui]? = some u) :
    ∃ h' o', AddChild h he ui r = some h' ∧ h'[he]? = some o' ∧
      o'.children = mapSet o.children (newId u r) ui ∧
      o'.childOrder = o.childOrder ++ [ui] := by
  refine ⟨_, { (if he = ui then { u with id := newId u r } else o) with
            children := mapSet o.children (newId u r) ui,
            childOrder := o.childOrder ++ [ui] }, AddChild_eq h he ui r o u hp hc, ?_, rfl, rfl⟩
  simp [List.getElem?_set, lt_of_get hp]

theorem AddChild_get_child (h : Heap) (he ui : Ptr) (r : Nat) (o u : UIObject)
    (hp : h[he]? = some o) (hc : h[ui]? = some u) (h' : Heap)
    (hadd : AddChild h he ui r = some h') :
    (h'[ui]?).map UIObject.Id = some (newId u r) := by
  rw [AddChild_eq h he ui r o u hp hc] at hadd
  cases hadd
  by_cases hew : he = ui
  · subst hew
    simp [List.getElem?_set, lt_of_get hp, UIObject.Id]
  · simp [List.getElem?_set, lt_of_get hc, hew, UIObject.Id]

theorem AddChild_length (h : Heap) (he ui : Ptr) (r : Nat) (h' : Heap)
    (hadd : AddChild h he ui r = some h') : h'.length = h.length := by
  cases hc : h[ui]? with
  | none => simp [AddChild, hc] at hadd
  | some u =>
    cases hp : h[he]? with
    | none =>
      exfalso
      have hlt := lt_of_get hc
      by_cases hz : u.id.length = 0
      · by_cases hew : ui = he
        · subst hew
          rw [hp] at hc
          cases hc
        · simp [AddChild, hc, hp, hz, UIObject.Id, ContentType, generateId, SetId,
            List.getElem?_set, hlt, hew] at hadd
      · simp [AddChild, hc, hp, hz, UIObject.Id] at hadd
    | some o =>
      rw [AddChild_eq h he ui r o u hp hc] at hadd
      cases hadd
      simp

theorem AddChildren_order (ui : List Ptr) :
    ∀ (h : Heap) (he : Ptr) (rs : List Nat) (l : List Ptr),
      ChildrenByOrder h he = some l → NonNil h ui →
      ∃ h', AddChildren h he ui rs = some h' ∧ ChildrenByOrder h' he = some (l ++ ui) := by
  induction ui with
  | nil =>
    intro h he rs l hl _
    exact ⟨h, rfl, by simpa using hl⟩
  | cons c cs ih =>
    intro h he rs l hl hv
    have hc : c < h.length := hv c (List.mem_cons_self _ _)
    obtain ⟨o, hp, hlo⟩ : ∃ o, h[he]? = some o ∧ o.childOrder = l := by
      cases hq : h[he]? with
      | none => simp [ChildrenByOrder, hq] at hl
      | some o => exact ⟨o, rfl, by simpa [ChildrenByOrder, hq] using hl⟩
    obtain ⟨h1, o1, hadd, hget, _, hord⟩ :=
      AddChild_get_self h he c (rs.headD 0) o (h[c]) hp (List.getElem?_eq_getElem hc)
    have hlen := AddChild_length h he c (rs.headD 0) h1 hadd
    have hv1 : NonNil h1 cs := fun q hq => by
      rw [hlen]; exact hv q (List.mem_cons_of_mem _ hq)
    have hl1 : ChildrenByOrder h1 he = some (l ++ [c]) := by
      simp [ChildrenByOrder, hget, hord, hlo]
    obtain ⟨h', hadds, hres⟩ := ih h1 he rs.tail (l ++ [c]) hl1 hv1
    refine ⟨h', ?_, by simpa using hres⟩
    simp only [AddChildren, Option.bind_eq_bind]
    rw [hadd]
    simpa using hadds

theorem loop_none_iff (h : Heap) (t b : String) (rest : List Ptr) :
    ∀ (i : Nat) (obj mark : Option Nat), NonNil h rest →
      (SetChildOrder.loop h t b rest i obj mark = none ↔
        (obj.isSome ∨ ∃ v ∈ rest, idOf h v = some t) ∧
        (mark.isSome ∨ ∃ v ∈ rest, idOf h v = some b)) := by
  induction rest with
  | nil =>
    intro i obj mark _
    cases obj <;> cases mark <;> simp [SetChildOrder.loop]
  | cons v rest ih =>
    intro i obj mark hv
    have hvl : v < h.length := hv v (List.mem_cons_self _ _)
    have hrest : NonNil h rest := fun q hq => hv q (List.mem_cons_of_mem _ hq)
    have hget : h[v]? = some h[v] := List.getElem?_eq_getElem hvl
    simp only [SetChildOrder.loop, hget, Option.bind_eq_bind, Option.some_bind]
    rw [ih _ _ _ hrest]
    simp only [idOf, hget, Option.map_some', Option.some.injEq, List.mem_cons,
      exists_eq_or_imp]
    by_cases h1 : (h[v]).Id = t
    · by_cases h2 : (h[v]).Id = b
      · simp only [if_pos h1, if_pos h2, Option.isSome_some]
        tauto
      · simp only [if_pos h1, if_neg h2, Option.isSome_some]
        tauto
    · by_cases h2 : (h[v]).Id = b
      · simp only [if_neg h1, if_pos h2, Option.isSome_some]
        tauto
      · simp only [if_neg h1, if_neg h2]
        tauto

theorem loop_some (h : Heap) (t b : String) (rest : List Ptr) :
    ∀ (i : Nat) (obj mark : Option Nat) (res : Option Nat × Option Nat × Option Nat),
      SetChildOrder.loop h t b rest i obj mark = some res →
        res.1 = none ∧ (res.2.1.isSome && res.2.2.isSome) = false := by
  induction rest with
  | nil =>
    intro i obj mark res hres
    by_cases hb : (obj.isSome && mark.isSome) = true
    · simp [SetChildOrder.loop, hb] at hres
    · simp only [SetChildOrder.loop, hb] at hres
      simp at hres
      subst hres
      simpa using hb
  | cons v rest ih =>
    intro i obj mark res hres
    cases hget : h[v]? with
    | none => simp [SetChildOrder.loop, hget] at hres
    | some o =>
      simp only [SetChildOrder.loop, hget, Option.bind_eq_bind, Option.some_bind] at hres
      exact ih _ _ _ _ hres

theorem SetChildOrder_some (h : Heap) (he : Ptr) (t b : String) (h' : Heap)
    (hres : SetChildOrder h he t b = some h') : h' = h := by
  cases hp : h[he]? with
  | none => simp [SetChildOrder, hp] at hres
  | some o =>
    cases hl : SetChildOrder.loop h t b o.childOrder 0 none none with
    | none => simp [SetChildOrder, hp, hl] at hres
    | some res =>
      obtain ⟨x, obj, mark⟩ := res
      have hb := (loop_some h t b o.childOrder 0 none none _ hl).2
      have hb2 : ¬ (obj.isSome = true ∧ mark.isSome = true) := by
        rintro ⟨e1, e2⟩
        simp [e1, e2] at hb
      simp [SetChildOrder, hp, hl, hb2] at hres
      exact hres.symm

theorem SetChildOrder_none_iff (h : Heap) (he : Ptr) (t b : String) (o : UIObject)
    (hp : h[he]? = some o) (hv : NonNil h o.childOrder) :
    SetChildOrder h he t b = none ↔
      (∃ v ∈ o.childOrder, idOf h v = some t) ∧ (∃ v ∈ o.childOrder, idOf h v = some b) := by
  have hiff := loop_none_iff h t b o.childOrder 0 none none hv
  simp only [Option.isSome_none, Bool.false_eq_true, false_or] at hiff
  rw [← hiff]
  cases hl : SetChildOrder.loop h t b o.childOrder 0 none none with
  | none => simp [SetChildOrder, hp, hl]
  | some res =>
    obtain ⟨x, obj, mark⟩ := res
    have hb := (loop_some h t b o.childOrder 0 none none _ hl).2
    have hb2 : ¬ (obj.isSome = true ∧ mark.isSome = true) := by
      rintro ⟨e1, e2⟩
      simp [e1, e2] at hb
    simp [SetChildOrder, hp, hl, hb2]

theorem mem_mapSet {β : Type} (m : List (String × β)) (k : String) (v : β) (e : String × β)
    (he : e ∈ mapSet m k v) : e = (k, v) ∨ (e ∈ m ∧ e.1 ≠ k) := by
  unfold mapSet at he
  split at he
  · rw [List.mem_map] at he
    obtain ⟨a, ha, hae⟩ := he
    by_cases hk : a.1 = k
    · rw [if_pos hk] at hae
      exact Or.inl hae.symm
    · rw [if_neg hk] at hae
      subst hae
      exact Or.inr ⟨ha, hk⟩
  · rw [List.mem_append, List.mem_singleton] at he
    rcases he with he | he
    · right
      refine ⟨he, fun hk => ?_⟩
      rename_i hany
      apply hany
      rw [any_key_iff]
      exact List.mem_map.2 ⟨e, he, hk⟩
    · exact Or.inl he

theorem mapSet_mem_new {β : Type} (m : List (String × β)) (k : String) (v : β) :
    (k, v) ∈ mapSet m k v := by
  unfold mapSet
  split
  · rename_i hany
    rw [any_key_iff] at hany
    obtain ⟨a, ha, hak⟩ := List.mem_map.1 hany
    exact List.mem_map.2 ⟨a, ha, by simp [hak]⟩
  · simp

theorem mapGet_mapSet {β : Type} (m : List (String × β)) (k : String) (v : β) :
    mapGet (mapSet m k v) k = some v := by
  unfold mapGet mapSet
  split
  · rename_i hany
    induction m with
    | nil => simp at hany
    | cons e rest ih =>
      by_cases hk : e.1 = k
      · simp [hk]
      · have hrest : (rest.any (fun e => decide (e.1 = k))) = true := by
          simpa [hk] using hany
        have := ih hrest
        simpa [List.find?_cons, hk] using this
  · rename_i hany
    induction m with
    | nil => simp
    | cons e rest ih =>
      have hk : ¬ e.1 = k := by
        intro hk
        apply hany
        simp [hk]
      have hrest : ¬ (rest.any (fun e => decide (e.1 = k))) = true := by
        intro hr
        apply hany
        simp only [List.any_cons, hr, Bool.or_true]
      have := ih hrest
      simpa [List.find?_cons, hk] using this

theorem AddChild_idOf (h : Heap) (he ui : Ptr) (r : Nat) (o u : UIObject)
    (hp : h[he]? = some o) (hc : h[ui]? = some u) (h' : Heap)
    (hadd : AddChild h he ui r = some h') (q : Ptr) :
    idOf h' q = if q = ui then some (newId u r) else idOf h q := by
  rw [AddChild_eq h he ui r o u hp hc] at hadd
  cases hadd
  have hlt := lt_of_get hc
  have hlt2 := lt_of_get hp
  by_cases hq : q = ui
  · subst hq
    by_cases hew : he = q
    · subst hew
      simp [idOf, List.getElem?_set, hlt, UIObject.Id]
    · simp [idOf, List.getElem?_set, hlt, hew, UIObject.Id]
  · have hq2 : ¬ ui = q := fun e => hq e.symm
    by_cases hqe : he = q
    · subst hqe
      simp [idOf, List.getElem?_set, hlt2, hq, hq2, hp, UIObject.Id]
    · simp [idOf, List.getElem?_set, hq, hq2, hqe]

theorem GetChildById_range_spec (h : Heap) (id : String) (l : List (String × Ptr))
    (hv : NonNil h (l.map Prod.snd)) :
    ∃ res, GetChildById.range h id l = some res ∧
      (∀ q, res = some q → q ∈ l.map Prod.snd ∧ idOf h q = some id) ∧
      (res = none ↔ ∀ q ∈ l.map Prod.snd, idOf h q ≠ some id) := by
  induction l with
  | nil => exact ⟨none, rfl, by simp, by simp⟩
  | cons e rest ih =>
    obtain ⟨k, c⟩ := e
    have hc : c < h.length := hv c (by simp)
    have hget : h[c]? = some h[c] := List.getElem?_eq_getElem hc
    have hrest : NonNil h (rest.map Prod.snd) := fun q hq => hv q (by
      rw [List.map_cons]; exact List.mem_cons_of_mem _ hq)
    obtain ⟨res, hres, h1, h2⟩ := ih hrest
    by_cases hid : (h[c]).Id = id
    · refine ⟨some c, by simp [GetChildById.range, hget, hid], ?_, ?_⟩
      · intro q hq
        cases hq
        exact ⟨by simp, by simp [idOf, hget, hid]⟩
      · constructor
        · intro hn; cases hn
        · intro hall
          exact absurd (by simp [idOf, hget, hid]) (hall c (by simp))
    · refine ⟨res, by simp [GetChildById.range, hget, hid, hres], ?_, ?_⟩
      · intro q hq
        obtain ⟨hm, hi⟩ := h1 q hq
        exact ⟨by rw [List.map_cons]; exact List.mem_cons_of_mem _ hm, hi⟩
      · rw [h2]
        constructor
        · intro hall q hq
          rw [List.map_cons, List.mem_cons] at hq
          rcases hq with hq | hq
          · subst hq
            simp [idOf, hget, hid]
          · exact hall q hq
        · intro hall q hq
          exact hall q (by rw [List.map_cons]; exact List.mem_cons_of_mem _ hq)

theorem GetChildById_range_unique (h : Heap) (id : String) (c : Ptr) (l : List (String × Ptr))
    (hall : ∀ e ∈ l, ∃ s, idOf h e.2 = some s ∧ (s = id → e.2 = c))
    (hin : ∃ e ∈ l, e.2 = c) (hc : idOf h c = some id) :
    GetChildById.range h id l = some (some c) := by
  induction l with
  | nil =>
    obtain ⟨e, he, _⟩ := hin
    cases he
  | cons e rest ih =>
    obtain ⟨k, d⟩ := e
    obtain ⟨s, hs, hsd⟩ := hall (k, d) (List.mem_cons_self _ _)
    cases hget : h[d]? with
    | none => simp [idOf, hget] at hs
    | some od =>
      have hs2 : od.Id = s := by simpa [idOf, hget] using hs
      by_cases hid : od.Id = id
      · have hdc : d = c := hsd (hs2 ▸ hid)
        subst hdc
        simp [GetChildById.range, hget, hid]
      · have hrest : ∃ e ∈ rest, e.2 = c := by
          obtain ⟨e, he, hec⟩ := hin
          rcases List.mem_cons.1 he with he | he
          · exfalso
            subst he
            simp only at hec
            subst hec
            apply hid
            simpa [idOf, hget] using hc
          · exact ⟨e, he, hec⟩
        have := ih (fun e he => hall e (List.mem_cons_of_mem _ he)) hrest
        simp [GetChildById.range, hget, hid, this]

theorem Desc_cases (h : Heap) (p q : Ptr) (hd : Desc h p q) :
    q = p ∨ ∃ o e, h[p]? = some o ∧ e ∈ o.children ∧ Desc h e.2 q := by
  cases hd with
  | self => exact Or.inl rfl
  | child _ o e _ hp he hd => exact Or.inr ⟨o, e, hp, he, hd⟩

theorem search_range_spec (search : Ptr → Option (Option Ptr)) (l : List (String × Ptr))
    (hall : ∀ e ∈ l, ∃ r, search e.2 = some r) :
    ∃ res, SearchChildrenById.range search l = some res ∧
      (∀ q, res = some q → ∃ e ∈ l, search e.2 = some (some q)) ∧
      (res = none → ∀ e ∈ l, search e.2 = some none) := by
  induction l with
  | nil => exact ⟨none, rfl, by simp, by simp⟩
  | cons e rest ih =>
    obtain ⟨k, c⟩ := e
    obtain ⟨res, hres, h1, h2⟩ := ih (fun e he => hall e (List.mem_cons_of_mem _ he))
    obtain ⟨r, hr⟩ := hall (k, c) (List.mem_cons_self _ _)
    simp only at hr
    cases r with
    | some q =>
      refine ⟨some q, by simp [SearchChildrenById.range, hr], ?_, by simp⟩
      intro q' hq'
      cases hq'
      exact ⟨(k, c), List.mem_cons_self _ _, hr⟩
    | none =>
      refine ⟨res, by simp [SearchChildrenById.range, hr, hres], ?_, ?_⟩
      · intro q hq
        obtain ⟨e, he, hs⟩ := h1 q hq
        exact ⟨e, List.mem_cons_of_mem _ he, hs⟩
      · intro hn e he
        rcases List.mem_cons.1 he with he | he
        · subst he
          exact hr
        · exact h2 hn e he

theorem search_spec (h : Heap) (id : String) (n : Nat) :
    ∀ (r : Ptr), isTree h n r = true → ∀ fuel, n ≤ fuel →
      ∃ res, SearchChildrenById fuel h r id = some res ∧
        (∀ q, res = some q → Desc h r q ∧ idOf h q = some id) ∧
        (res = none → ∀ q, Desc h r q → idOf h q ≠ some id) := by
  induction n with
  | zero =>
    intro r ht
    simp [isTree] at ht
  | succ n ih =>
    intro r ht fuel hfuel
    obtain ⟨f, rfl⟩ : ∃ f, fuel = f + 1 := ⟨fuel - 1, by omega⟩
    have hf : n ≤ f := by omega
    cases hp : h[r]? with
    | none => simp [isTree, hp] at ht
    | some o =>
      simp only [isTree, hp, List.all_eq_true] at ht
      by_cases hid : o.Id = id
      · refine ⟨some r, by simp [SearchChildrenById, hp, hid], ?_, by simp⟩
        intro q hq
        cases hq
        exact ⟨Desc.self r, by simp [idOf, hp, hid]⟩
      · have hall : ∀ e ∈ o.children, ∃ x, SearchChildrenById f h e.2 id = some x := by
          intro e he
          obtain ⟨x, hx, _⟩ := ih e.2 (ht e he) f hf
          exact ⟨x, hx⟩
        obtain ⟨res, hres, h1, h2⟩ :=
          search_range_spec (fun c => SearchChildrenById f h c id) o.children hall
        refine ⟨res, by simp [SearchChildrenById, hp, hid, hres], ?_, ?_⟩
        · intro q hq
          obtain ⟨e, he, hs⟩ := h1 q hq
          obtain ⟨x, hx, hx1, _⟩ := ih e.2 (ht e he) f hf
          rw [hs] at hx
          cases hx
          obtain ⟨hd, hi⟩ := hx1 q rfl
          exact ⟨Desc.child r o e q hp he hd, hi⟩
        · intro hn q hd
          rcases Desc_cases h r q hd with hq | ⟨o2, e, hp2, he, hd2⟩
          · subst hq
            simp [idOf, hp, hid]
          · rw [hp] at hp2
            cases hp2
            obtain ⟨x, hx, _, hx2⟩ := ih e.2 (ht e he) f hf
            have hs := h2 hn e he
            rw [hs] at hx
            cases hx
            exact hx2 rfl q hd2

/-! ## The invariant of the children collection -/

theorem idOf_set (h : Heap) (q : Ptr) (o : UIObject) (x : Ptr) (hq : q < h.length) :
    idOf (h.set q o) x = if x = q then some o.Id else idOf h x := by
  by_cases hx : x = q
  · subst hx
    simp [idOf, List.getElem?_set, hq]
  · have hx2 : ¬ q = x := fun e => hx e.symm
    simp [idOf, List.getElem?_set, hx, hx2]

theorem newId_length (u : UIObject) (r : Nat) : (newId u r).length ≠ 0 := by
  unfold newId
  split
  · simp only [String.length_append]
    have : "#".length = 1 := by decide
    omega
  · assumption

theorem mapSet_fresh {β : Type} (m : List (String × β)) (k : String) (v : β)
    (hk : k ∉ mapKeys m) : mapSet m k v = m ++ [(k, v)] := by
  unfold mapSet
  have : ¬ (m.any (fun e => decide (e.1 = k))) = true := fun hh => hk ((any_key_iff m k).1 hh)
  simp [this]

theorem Inv_set (h : Heap) (q : Ptr) (o o' : UIObject) (hI : Inv h) (hq : h[q]? = some o)
    (hc : o'.children = o.children) (ho : o'.childOrder = o.childOrder)
    (hid : o'.id = o.id ∨ NotAChild h q) : Inv (h.set q o') := by
  intro p o2 hp2
  have hex : ∃ o0, h[p]? = some o0 ∧ o2.children = o0.children ∧
      o2.childOrder = o0.childOrder := by
    by_cases hpq : q = p
    · subst hpq
      rw [List.getElem?_set, if_pos rfl, if_pos (lt_of_get hq)] at hp2
      cases hp2
      exact ⟨o, hq, hc, ho⟩
    · rw [List.getElem?_set, if_neg hpq] at hp2
      exact ⟨o2, hp2, rfl, rfl⟩
  obtain ⟨o0, hp0, e1, e2⟩ := hex
  obtain ⟨a, b, c⟩ := hI p o0 hp0
  refine ⟨by rw [e1]; exact a, by rw [e1, e2]; exact b, ?_⟩
  intro e he
  rw [e1] at he
  obtain ⟨c1, c2⟩ := c e he
  refine ⟨?_, c2⟩
  rw [idOf_set _ _ _ _ (lt_of_get hq)]
  by_cases hx : e.2 = q
  · rw [if_pos hx]
    rcases hid with hid | hid
    · rw [hx] at c1
      simp only [idOf, hq, Option.map_some'] at c1
      rw [← c1]
      simp [UIObject.Id, hid]
    · exact absurd (List.mem_map.2 ⟨e, he, hx⟩) (hid p o0 hp0)
  · rw [if_neg hx]
    exact c1

theorem Inv_push (h : Heap) (he ui : Ptr) (o u : UIObject) (hI : Inv h)
    (hp : h[he]? = some o) (hc : h[ui]? = some u) (hlen : u.id.length ≠ 0)
    (hfresh : u.id ∉ mapKeys o.children) :
    Inv (h.set he { o with children := mapSet o.children u.id ui,
                           childOrder := o.childOrder ++ [ui] }) := by
  intro p o2 hp2
  have hidOf : ∀ c l x, idOf (h.set he { o with children := c, childOrder := l }) x = idOf h x := by
    intro c l x
    rw [idOf_set _ _ _ _ (lt_of_get hp)]
    by_cases hx : x = he
    · subst hx
      simp [idOf, hp, UIObject.Id]
    · rw [if_neg hx]
  by_cases hpq : he = p
  · subst hpq
    rw [List.getElem?_set, if_pos rfl, if_pos (lt_of_get hp)] at hp2
    cases hp2
    obtain ⟨a, b, c⟩ := hI he o hp
    simp only [mapSet_fresh _ _ _ hfresh]
    refine ⟨?_, ?_, ?_⟩
    · simp only [mapKeys, List.map_append, List.map_cons, List.map_nil]
      rw [List.nodup_append]
      refine ⟨a, List.nodup_singleton _, ?_⟩
      intro k hk1 hk2
      rw [List.mem_singleton] at hk2
      subst hk2
      exact hfresh hk1
    · simp only [List.map_append, List.map_cons, List.map_nil]
      exact List.Perm.append_right _ b
    · intro e hmem
      rw [hidOf]
      rcases List.mem_append.1 hmem with hm | hm
      · exact c e hm
      · rw [List.mem_singleton] at hm
        subst hm
        exact ⟨by simp [idOf, hc, UIObject.Id], hlen⟩
  · rw [List.getElem?_set, if_neg hpq] at hp2
    obtain ⟨a, b, c⟩ := hI p o2 hp2
    refine ⟨a, b, ?_⟩
    intro e hmem
    rw [hidOf]
    exact c e hmem

theorem Inv_AddChild (h : Heap) (he ui : Ptr) (r : Nat) (h' : Heap) (hI : Inv h)
    (hf : FreshAdd h he ui r) (hadd : AddChild h he ui r = some h') : Inv h' := by
  obtain ⟨o, u, hp, hc, hfresh⟩ := hf
  rw [AddChild_eq h he ui r o u hp hc] at hadd
  cases hadd
  have hI1 : Inv (h.set ui { u with id := newId u r }) := by
    apply Inv_set h ui u { u with id := newId u r } hI hc rfl rfl
    by_cases hz : u.id.length = 0
    · right
      intro p o2 hp2 hmem
      obtain ⟨e, he1, he2⟩ := List.mem_map.1 hmem
      obtain ⟨c1, c2⟩ := (hI p o2 hp2).2.2 e he1
      rw [he2] at c1
      simp only [idOf, hc, Option.map_some', Option.some.injEq, UIObject.Id] at c1
      rw [← c1] at c2
      exact c2 hz
    · left
      simp [newId, UIObject.Id, hz]
  have hlt := lt_of_get hc
  have hget1 : (h.set ui { u with id := newId u r })[he]? =
      some (if he = ui then { u with id := newId u r } else o) := by
    by_cases hew : he = ui
    · subst hew
      simp [List.getElem?_set, hlt]
    · have hew2 : ¬ ui = he := fun e => hew e.symm
      simp [List.getElem?_set, hew, hew2, hp]
  have hget2 : (h.set ui { u with id := newId u r })[ui]? = some { u with id := newId u r } := by
    simp [List.getElem?_set, hlt]
  have hch : (if he = ui then { u with id := newId u r } else o).children = o.children := by
    by_cases hew : he = ui
    · subst hew
      rw [hp] at hc
      cases hc
      simp
    · simp [hew]
  have hco : (if he = ui then { u with id := newId u r } else o).childOrder = o.childOrder := by
    by_cases hew : he = ui
    · subst hew
      rw [hp] at hc
      cases hc
      simp
    · simp [hew]
  have hpush := Inv_push _ he ui _ _ hI1 hget1 hget2 (newId_length u r)
    (by rw [hch]; exact hfresh)
  rw [hch, hco] at hpush
  exact hpush

theorem SameShape_get (h h' : Heap) (hs : SameShape h h') (q : Ptr) (o' : UIObject)
    (hq : h'[q]? = some o') :
    ∃ o, h[q]? = some o ∧ o'.id = o.id ∧ o'.contentType = o.contentType ∧
      o'.children = o.children ∧ o'.childOrder = o.childOrder := by
  have := hs q
  rw [hq] at this
  cases hh : h[q]? with
  | none => simp [hh] at this
  | some o =>
    simp only [hh, Option.map_some', Option.some.injEq, Prod.mk.injEq] at this
    exact ⟨o, rfl, this.1, this.2.1, this.2.2.1, this.2.2.2⟩

theorem SameShape_symm (h h' : Heap) (hs : SameShape h h') : SameShape h' h :=
  fun q => (hs q).symm

theorem SameShape_trans (h h' h'' : Heap) (h1 : SameShape h h') (h2 : SameShape h' h'') :
    SameShape h h'' :=
  fun q => (h2 q).trans (h1 q)

theorem SameShape_idOf (h h' : Heap) (hs : SameShape h h') (x : Ptr) : idOf h' x = idOf h x := by
  have := hs x
  cases h1 : h'[x]? with
  | none =>
    cases h2 : h[x]? with
    | none => simp [idOf, h1, h2]
    | some o => simp [h1, h2] at this
  | some o' =>
    cases h2 : h[x]? with
    | none => simp [h1, h2] at this
    | some o =>
      simp only [h1, h2, Option.map_some', Option.some.injEq, Prod.mk.injEq] at this
      simp [idOf, h1, h2, UIObject.Id, this.1]

theorem SameShape_set (h : Heap) (q : Ptr) (o o' : UIObject) (hq : h[q]? = some o)
    (hid : o'.id = o.id) (hct : o'.contentType = o.contentType)
    (hc : o'.children = o.children) (ho : o'.childOrder = o.childOrder) :
    SameShape h (h.set q o') := by
  intro x
  by_cases hx : q = x
  · subst hx
    simp [List.getElem?_set, lt_of_get hq, hq, hid, hct, hc, ho]
  · simp [List.getElem?_set, hx]

theorem Inv_shape (h h' : Heap) (hs : SameShape h h') (hI : Inv h) : Inv h' := by
  intro p o' hp
  obtain ⟨o, hq, _, _, e3, e4⟩ := SameShape_get h h' hs p o' hp
  obtain ⟨a, b, c⟩ := hI p o hq
  refine ⟨by rw [e3]; exact a, by rw [e3, e4]; exact b, ?_⟩
  intro e he
  rw [e3] at he
  rw [SameShape_idOf h h' hs]
  exact c e he

theorem SameShape_AddAttribute (h : Heap) (he : Ptr) (k v : String) (h' : Heap)
    (hadd : AddAttribute h he k v = some h') : SameShape h h' := by
  cases hp : h[he]? with
  | none => simp [AddAttribute, hp] at hadd
  | some o =>
    simp only [AddAttribute, hp, Option.some.injEq] at hadd
    subst hadd
    exact SameShape_set h he o _ hp rfl rfl rfl rfl

theorem SameShape_AddAttributeMap (a : AttributeMap) :
    ∀ (h : Heap) (he : Ptr) (h' : Heap), AddAttributeMap h he a = some h' → SameShape h h' := by
  induction a with
  | nil =>
    intro h he h' hadd
    simp only [AddAttributeMap, Option.some.injEq] at hadd
    subst hadd
    exact fun _ => rfl
  | cons e rest ih =>
    intro h he h' hadd
    obtain ⟨k, v⟩ := e
    cases h1 : AddAttribute h he k v with
    | none => simp [AddAttributeMap, h1] at hadd
    | some g =>
      simp only [AddAttributeMap, h1, Option.bind_eq_bind, Option.some_bind] at hadd
      exact SameShape_trans h g h' (SameShape_AddAttribute h he k v g h1) (ih g he h' hadd)

theorem Inv_NewElement (h : Heap) (cType id className text : String) (hI : Inv h) :
    Inv (NewElement h cType id className text).1 := by
  intro p o2 hp2
  simp only [NewElement] at hp2
  by_cases hlt : p < h.length
  · rw [List.getElem?_append_left hlt] at hp2
    obtain ⟨a, b, c⟩ := hI p o2 hp2
    refine ⟨a, b, fun e he => ⟨?_, (c e he).2⟩⟩
    have c1 := (c e he).1
    have hlt2 : e.2 < h.length := by
      cases hg : h[e.2]? with
      | none => simp [idOf, hg] at c1
      | some x => exact lt_of_get hg
    simp only [idOf, NewElement, List.getElem?_append_left hlt2]
    exact c1
  · rw [List.getElem?_append_right (not_lt.1 hlt)] at hp2
    cases hk : p - h.length with
    | zero =>
      rw [hk] at hp2
      simp only [List.getElem?_cons_zero, Option.some.injEq] at hp2
      subst hp2
      simp [mapKeys]
    | succ k =>
      rw [hk] at hp2
      simp at hp2

theorem NewElement_get_old (h : Heap) (cType id className text : String) (q : Ptr)
    (o : UIObject) (hq : h[q]? = some o) :
    (NewElement h cType id className text).1[q]? = some o := by
  simp only [NewElement]
  rw [List.getElem?_append_left (lt_of_get hq)]
  exact hq

theorem NewElement_get_new (h : Heap) (cType id className text : String) :
    (NewElement h cType id className text).1[(NewElement h cType id className text).2]? =
      some { text := text, id := id, «class» := className, attrs := [], contentType := cType,
             children := [], childOrder := [] } := by
  simp [NewElement]

theorem Inv_AddChildren (ui : List Ptr) :
    ∀ (h : Heap) (he : Ptr) (rs : List Nat) (h' : Heap), Inv h → FreshAdds h he ui rs →
      AddChildren h he ui rs = some h' → Inv h' := by
  induction ui with
  | nil =>
    intro h he rs h' hI _ hadd
    simp only [AddChildren, Option.some.injEq] at hadd
    subst hadd
    exact hI
  | cons c cs ih =>
    intro h he rs h' hI hf hadd
    obtain ⟨hf1, hf2⟩ := hf
    cases h1 : AddChild h he c (rs.headD 0) with
    | none =>
      simp only [AddChildren, Option.bind_eq_bind] at hadd
      rw [h1] at hadd
      simp at hadd
    | some g =>
      simp only [AddChildren, Option.bind_eq_bind] at hadd
      rw [h1] at hadd
      simp only [Option.some_bind] at hadd
      exact ih g he rs.tail h' (Inv_AddChild h he c (rs.headD 0) g hI hf1 h1) (hf2 g h1) hadd

theorem Inv_json_children (vs : List elementStruct) :
    ∀ (h : Heap) (uio : Ptr) (rs : List Nat) (o : UIObject) (h' : Heap), Inv h →
      h[uio]? = some o → (docIds vs rs).Nodup →
      (∀ k ∈ docIds vs rs, k ∉ mapKeys o.children) →
      NewElementFromJSON.children h uio vs rs = some h' → Inv h' := by
  induction vs with
  | nil =>
    intro h uio rs o h' hI _ _ _ hrun
    simp only [NewElementFromJSON.children, Option.some.injEq] at hrun
    subst hrun
    exact hI
  | cons v vs ih =>
    intro h uio rs o h' hI hp hnd hdisj hrun
    simp only [NewElementFromJSON.children, Option.bind_eq_bind] at hrun
    cases h1 : AddAttributeMap (NewElement h v.Etype v.Id v.ClassName v.Text).1
        (NewElement h v.Etype v.Id v.ClassName v.Text).2 v.Attributes with
    | none =>
      rw [h1] at hrun
      simp at hrun
    | some g1 =>
      rw [h1] at hrun
      simp only [Option.some_bind] at hrun
      have hs := SameShape_AddAttributeMap _ _ _ _ h1
      have hI1 : Inv g1 := Inv_shape _ _ hs (Inv_NewElement h _ _ _ _ hI)
      obtain ⟨o1, hp1, _, _, ec, _⟩ := SameShape_get g1 _ (SameShape_symm _ _ hs) uio o
        (NewElement_get_old h v.Etype v.Id v.ClassName v.Text uio o hp)
      obtain ⟨u1, hc1, eid, ect, _, _⟩ := SameShape_get g1 _ (SameShape_symm _ _ hs) _ _
        (NewElement_get_new h v.Etype v.Id v.ClassName v.Text)
      simp only at eid ect
      have hnew : newId u1 (rs.headD 0) =
          (if v.Id.length = 0 then v.Etype ++ "#" ++ toString (rs.headD 0 % 100) else v.Id) := by
        simp only [newId, UIObject.Id, ← eid, ← ect]
      simp only [docIds, List.nodup_cons] at hnd
      have hfresh : newId u1 (rs.headD 0) ∉ mapKeys o1.children := by
        rw [hnew, ← ec]
        exact hdisj _ (by simp [docIds])
      cases h2 : AddChild g1 uio (NewElement h v.Etype v.Id v.ClassName v.Text).2 (rs.headD 0) with
      | none =>
        rw [h2] at hrun
        simp at hrun
      | some g2 =>
        rw [h2] at hrun
        simp only [Option.some_bind] at hrun
        have hI2 : Inv g2 := Inv_AddChild g1 uio _ _ g2 hI1 ⟨o1, u1, hp1, hc1, hfresh⟩ h2
        obtain ⟨g2', o2, hadd, hget, hch, _⟩ := AddChild_get_self g1 uio
          (NewElement h v.Etype v.Id v.ClassName v.Text).2 (rs.headD 0) o1 u1 hp1 hc1
        rw [h2] at hadd
        cases hadd
        rw [mapSet_fresh _ _ _ hfresh] at hch
        apply ih g2 uio rs.tail o2 h' hI2 hget hnd.2 _ hrun
        intro k hk hmem
        rw [hch] at hmem
        simp only [mapKeys, List.map_append, List.map_cons, List.map_nil, List.mem_append,
          List.mem_singleton] at hmem
        rcases hmem with hm | hm
        · rw [← ec] at hm
          exact hdisj k (by simp [docIds, hk]) hm
        · rw [hm, hnew] at hk
          exact hnd.1 hk

theorem Inv_NewElementFromJSON (unmarshal : String → Option elementStruct) (h : Heap)
    (s : String) (rs : List Nat) (h' : Heap) (p : Option Ptr) (hI : Inv h)
    (hdoc : ∀ eBuf, unmarshal s = some eBuf → (docIds eBuf.Children rs).Nodup)
    (hrun : NewElementFromJSON unmarshal h s rs = some (h', p)) : Inv h' := by
  cases hu : unmarshal s with
  | none =>
    simp only [NewElementFromJSON, hu, Option.some.injEq, Prod.mk.injEq] at hrun
    rw [← hrun.1]
    exact hI
  | some eBuf =>
    simp only [NewElementFromJSON, hu, Option.bind_eq_bind] at hrun
    cases h1 : AddAttributeMap (NewElement h eBuf.Etype eBuf.Id eBuf.ClassName eBuf.Text).1
        (NewElement h eBuf.Etype eBuf.Id eBuf.ClassName eBuf.Text).2 eBuf.Attributes with
    | none =>
      rw [h1] at hrun
      simp at hrun
    | some g1 =>
      rw [h1] at hrun
      simp only [Option.some_bind] at hrun
      have hs := SameShape_AddAttributeMap _ _ _ _ h1
      have hI1 : Inv g1 := Inv_shape _ _ hs (Inv_NewElement h _ _ _ _ hI)
      obtain ⟨u1, hc1, _, _, ec, _⟩ := SameShape_get g1 _ (SameShape_symm _ _ hs) _ _
        (NewElement_get_new h eBuf.Etype eBuf.Id eBuf.ClassName eBuf.Text)
      simp only at ec
      cases h2 : NewElementFromJSON.children g1
          (NewElement h eBuf.Etype eBuf.Id eBuf.ClassName eBuf.Text).2 eBuf.Children rs with
      | none =>
        rw [h2] at hrun
        simp at hrun
      | some g2 =>
        rw [h2] at hrun
        simp only [Option.some_bind, Option.some.injEq, Prod.mk.injEq] at hrun
        rw [← hrun.1]
        apply Inv_json_children eBuf.Children g1 _ rs u1 g2 hI1 hc1 (hdoc eBuf hu) _ h2
        intro k _ hmem
        rw [← ec] at hmem
        simp [mapKeys] at hmem

theorem Inv_SetId (h : Heap) (he : Ptr) (i : String) (h' : Heap) (hI : Inv h)
    (hn : NotAChild h he) (hset : SetId h he i = some h') : Inv h' := by
  cases hp : h[he]? with
  | none => simp [SetId, hp] at hset
  | some o =>
    simp only [SetId, hp, Option.some.injEq] at hset
    subst hset
    exact Inv_set h he o _ hI hp rfl rfl (Or.inr hn)

theorem Inv_SetText (h : Heap) (he : Ptr) (t : String) (h' : Heap) (hI : Inv h)
    (hset : SetText h he t = some h') : Inv h' := by
  cases hp : h[he]? with
  | none => simp [SetText, hp] at hset
  | some o =>
    simp only [SetText, hp, Option.some.injEq] at hset
    subst hset
    exact Inv_set h he o _ hI hp rfl rfl (Or.inl rfl)

theorem Inv_SetContentType (h : Heap) (he : Ptr) (t : String) (h' : Heap) (hI : Inv h)
    (hset : SetContentType h he t = some h') : Inv h' := by
  cases hp : h[he]? with
  | none => simp [SetContentType, hp] at hset
  | some o =>
    simp only [SetContentType, hp, Option.some.injEq] at hset
    subst hset
    exact Inv_set h he o _ hI hp rfl rfl (Or.inl rfl)

theorem Reach_Inv (h : Heap) (hr : Reach h) : Inv h := by
  induction hr with
  | empty =>
    intro p o hp
    simp at hp
  | newElement h cType id className text _ ih => exact Inv_NewElement h _ _ _ _ ih
  | fromJSON unmarshal h s rs h' p _ hdoc hrun ih =>
    exact Inv_NewElementFromJSON unmarshal h s rs h' p ih hdoc hrun
  | addChild h he ui r h' _ hf hadd ih => exact Inv_AddChild h he ui r h' ih hf hadd
  | addChildren h he ui rs h' _ hf hadd ih => exact Inv_AddChildren ui h he rs h' ih hf hadd
  | setChildOrder h he t b h' _ hset ih =>
    rw [SetChildOrder_some h he t b h' hset]
    exact ih
  | setId h he i h' _ hn hset ih => exact Inv_SetId h he i h' ih hn hset
  | setText h he t h' _ hset ih => exact Inv_SetText h he t h' ih hset
  | setContentType h he t h' _ hset ih => exact Inv_SetContentType h he t h' ih hset
  | addAttributeMap h he a h' _ hadd ih =>
    exact Inv_shape _ _ (SameShape_AddAttributeMap a h he h' hadd) ih
  | fields h q o t c a ct _ hq ih => exact Inv_set h q o _ ih hq rfl rfl (Or.inl rfl)

/-! ## Attribute maps -/

theorem mapGet_none {β : Type} (m : List (String × β)) (k : String) (hk : k ∉ mapKeys m) :
    mapGet m k = none := by
  unfold mapGet
  rw [Option.map_eq_none', List.find?_eq_none]
  intro e he hek
  exact hk (List.mem_map.2 ⟨e, he, by simpa using hek⟩)

theorem find_map_replace {β : Type} (m : List (String × β)) (k k2 : String) (v : β)
    (hne : k2 ≠ k) :
    (m.map (fun e => if e.1 = k then (k, v) else e)).find? (fun e => decide (e.1 = k2)) =
      m.find? (fun e => decide (e.1 = k2)) := by
  induction m with
  | nil => rfl
  | cons e rest ih =>
    obtain ⟨a, b⟩ := e
    by_cases hk : a = k
    · subst hk
      have hk2 : ¬ a = k2 := fun e2 => hne e2.symm
      simp only [List.map_cons, if_true, List.find?_cons, hk2, decide_False]
      exact ih
    · by_cases hk2 : a = k2
      · subst hk2
        simp [List.find?_cons, hk]
      · simp only [List.map_cons, if_neg hk, List.find?_cons, hk2, decide_False]
        exact ih

theorem mapGet_mapSet_ne {β : Type} (m : List (String × β)) (k k2 : String) (v : β)
    (hne : k2 ≠ k) : mapGet (mapSet m k v) k2 = mapGet m k2 := by
  have hne2 : ¬ k = k2 := fun e => hne e.symm
  unfold mapGet mapSet
  split
  · rw [find_map_replace m k k2 v hne]
  · rw [List.find?_append]
    simp [List.find?_cons, hne2]

theorem find_filter_ne {β : Type} (m : List (String × β)) (k k2 : String) (hne : k2 ≠ k) :
    (m.filter (fun e => !decide (e.1 = k))).find? (fun e => decide (e.1 = k2)) =
      m.find? (fun e => decide (e.1 = k2)) := by
  induction m with
  | nil => rfl
  | cons e rest ih =>
    obtain ⟨a, b⟩ := e
    by_cases hk : a = k
    · subst hk
      have hk2 : ¬ a = k2 := fun e2 => hne e2.symm
      simp only [List.filter_cons, decide_True, Bool.not_true, Bool.false_eq_true, if_false,
        List.find?_cons, hk2, decide_False]
      exact ih
    · by_cases hk2 : a = k2
      · subst hk2
        simp [List.filter_cons, List.find?_cons, hk]
      · simp only [List.filter_cons, hk, decide_False, Bool.not_false, if_true, List.find?_cons,
          hk2]
        exact ih

theorem mapGet_mapDelete {β : Type} (m : List (String × β)) (k : String) :
    mapGet (mapDelete m k) k = none := by
  apply mapGet_none
  intro hk
  obtain ⟨e, he, hek⟩ := List.mem_map.1 hk
  have := (List.mem_filter.1 he).2
  simp [hek] at this

theorem mapGet_mapDelete_ne {β : Type} (m : List (String × β)) (k k2 : String)
    (hne : k2 ≠ k) : mapGet (mapDelete m k) k2 = mapGet m k2 := by
  unfold mapGet mapDelete
  rw [find_filter_ne m k k2 hne]

theorem mapDelete_absent {β : Type} (m : List (String × β)) (k : String)
    (hk : k ∉ mapKeys m) : mapDelete m k = m := by
  unfold mapDelete
  rw [List.filter_eq_self]
  intro e he
  have : ¬ e.1 = k := fun hek => hk (List.mem_map.2 ⟨e, he, hek⟩)
  simp [this]

/-! ## Class strings -/

theorem containsL_iff (sub s : List Char) : containsL sub s = true ↔ sub <:+: s := by
  induction s with
  | nil => simp [containsL, List.isPrefixOf_iff_prefix]
  | cons c cs ih =>
    simp only [containsL, Bool.or_eq_true, ih, List.isPrefixOf_iff_prefix, List.infix_cons_iff]

theorem Contains_iff (s sub : String) : Contains s sub = true ↔ sub.data <:+: s.data :=
  containsL_iff sub.data s.data

theorem TrimSpace_sub (s : String) : (TrimSpace s).data <:+: s.data :=
  (List.rdropWhile_prefix isSpace _).isInfix.trans (List.dropWhile_suffix isSpace).isInfix

theorem sub_of_space_append (s w m : List Char) (hne : s ≠ [])
    (hs : ∀ c ∈ s, isSpace c = false) (hw : ∀ c ∈ w, isSpace c = true) (hin : s <:+: w ++ m) :
    s <:+: m := by
  induction w with
  | nil => simpa using hin
  | cons a rest ih =>
    rw [List.cons_append, List.infix_cons_iff] at hin
    rcases hin with hpre | hin
    · exfalso
      cases s with
      | nil => exact hne rfl
      | cons b bs =>
        have hab : b = a := (List.cons_prefix_cons.1 hpre).1
        have h1 := hs b (List.mem_cons_self _ _)
        have h2 := hw a (List.mem_cons_self _ _)
        rw [hab, h2] at h1
        cases h1
    · exact ih (fun c hc => hw c (List.mem_cons_of_mem _ hc)) hin

theorem sub_of_append_space (s w m : List Char) (hne : s ≠ [])
    (hs : ∀ c ∈ s, isSpace c = false) (hw : ∀ c ∈ w, isSpace c = true) (hin : s <:+: m ++ w) :
    s <:+: m := by
  have h1 : s.reverse <:+: w.reverse ++ m.reverse := by
    rw [← List.reverse_append, List.reverse_infix]
    exact hin
  have h2 := sub_of_space_append s.reverse w.reverse m.reverse (by simpa using hne)
    (fun c hc => hs c (List.mem_reverse.1 hc)) (fun c hc => hw c (List.mem_reverse.1 hc)) h1
  exact List.reverse_infix.1 h2

theorem rdropWhile_append_rtakeWhile (p : Char → Bool) (l : List Char) :
    l.rdropWhile p ++ l.rtakeWhile p = l := by
  simp only [List.rdropWhile, List.rtakeWhile, ← List.reverse_append,
    List.takeWhile_append_dropWhile, List.reverse_reverse]

theorem sub_TrimSpace (s : List Char) (c : String) (hne : s ≠ [])
    (hs : ∀ x ∈ s, isSpace x = false) (hin : s <:+: c.data) : s <:+: (TrimSpace c).data := by
  have h1 : c.data = c.data.takeWhile isSpace ++ c.data.dropWhile isSpace :=
    (List.takeWhile_append_dropWhile isSpace c.data).symm
  rw [h1] at hin
  have h2 := sub_of_space_append s _ _ hne hs (fun x hx => List.mem_takeWhile_imp hx) hin
  have h3 : c.data.dropWhile isSpace =
      (c.data.dropWhile isSpace).rdropWhile isSpace ++
        (c.data.dropWhile isSpace).rtakeWhile isSpace :=
    (rdropWhile_append_rtakeWhile _ _).symm
  rw [h3] at h2
  exact sub_of_append_space s _ _ hne hs (fun x hx => List.mem_rtakeWhile_imp hx) h2

theorem replaceL_absent (old new : List Char) (s : List Char) (habs : ¬ old <:+: s) :
    replaceL old new 0 s = s := by
  induction s with
  | nil => rfl
  | cons c cs ih =>
    have h1 : ¬ old <+: c :: cs := fun hp => habs hp.isInfix
    have h2 : ¬ old <:+: cs := fun hi => habs (List.infix_cons hi)
    have h3 : old.isPrefixOf (c :: cs) = false := by
      rw [← Bool.not_eq_true, List.isPrefixOf_iff_prefix]
      exact h1
    simp only [replaceL, h3, Bool.false_eq_true, if_false, ih h2]
theorem replaceL_skip (old new : List Char) (k : Nat) :
    ∀ s : List Char, k ≤ s.length → replaceL old new k s = replaceL old new 0 (s.drop k) := by
  induction k with
  | zero => intro s _; rfl
  | succ k ih =>
    intro s hk
    cases s with
    | nil => simp at hk
    | cons c cs =>
      simp only [replaceL, List.drop_succ_cons]
      exact ih cs (by simpa using hk)

theorem replaceL_match (old : List Char) (s : List Char) (hne : old ≠ []) :
    replaceL old [] 0 (old ++ s) = replaceL old [] 0 s := by
  cases old with
  | nil => exact absurd rfl hne
  | cons a as =>
    have hpre : (a :: as).isPrefixOf (a :: (as ++ s)) = true := by
      rw [List.isPrefixOf_iff_prefix]
      exact List.prefix_append (a :: as) s
    simp only [List.cons_append, replaceL, hpre, if_true, List.nil_append, List.length_cons,
      Nat.add_sub_cancel]
    rw [replaceL_skip _ _ _ _ (by simp)]
    simp

theorem replaceL_nomatch (old new : List Char) (c : Char) (cs : List Char)
    (hn : ¬ old <+: c :: cs) :
    replaceL old new 0 (c :: cs) = c :: replaceL old new 0 cs := by
  have h3 : old.isPrefixOf (c :: cs) = false := by
    rw [← Bool.not_eq_true, List.isPrefixOf_iff_prefix]
    exact hn
  simp only [replaceL, h3, Bool.false_eq_true, if_false]

theorem leftDelimited_append (old : List Char) (u : List Char) :
    ∀ (f : Bool) (x : Char) (v : List Char), leftDelimited old f (u ++ x :: v) = true →
      leftDelimited old (isSpace x) v = true := by
  induction u with
  | nil =>
    intro f x v h
    simp only [List.nil_append, leftDelimited, Bool.and_eq_true] at h
    exact h.2
  | cons a u ih =>
    intro f x v h
    simp only [List.cons_append, leftDelimited, Bool.and_eq_true] at h
    exact ih _ x v h.2

theorem last_mem_of_append_eq (l c p : List Char) (w : Char) (hc : c ≠ [])
    (h : l ++ c = p ++ [w]) : w ∈ c := by
  rcases List.eq_nil_or_concat c with rfl | ⟨c0, x, rfl⟩
  · exact absurd rfl hc
  · rw [List.concat_eq_append] at h ⊢
    rw [← List.append_assoc] at h
    have := (List.append_inj' h rfl).2
    simp only [List.cons.injEq, and_true] at this
    subst this
    simp

theorem replaceL_no_occurrence (old : List Char) (hne : old ≠ [])
    (hold : ∀ x ∈ old, isSpace x = false) (n : Nat) :
    ∀ (s acc : List Char) (flag : Bool), s.length ≤ n →
      (∀ pre post, acc ++ s = pre ++ (old ++ post) → acc <+: pre) →
      leftDelimited old flag s = true →
      (flag = true → acc = [] ∨ ∃ p w, acc = p ++ [w] ∧ isSpace w = true) →
      ¬ old <:+: acc ++ replaceL old [] 0 s := by
  induction n with
  | zero =>
    intro s acc flag hlen hJ1 _ _
    have hs : s = [] := List.length_eq_zero.1 (Nat.le_zero.1 hlen)
    subst hs
    rintro ⟨pre, post, hocc⟩
    simp only [replaceL, List.append_nil] at hocc hJ1
    have hpre := hJ1 pre post (by rw [← hocc, List.append_assoc])
    have h1 := hpre.length_le
    have h2 := congrArg List.length hocc
    simp only [List.length_append] at h2
    have h3 : 0 < old.length := List.length_pos.2 hne
    omega
  | succ n ih =>
    intro s acc flag hlen hJ1 hJ2 hJ3
    cases s with
    | nil => exact ih [] acc flag (by simp) hJ1 hJ2 hJ3
    | cons c cs =>
      by_cases hm : old <+: c :: cs
      · obtain ⟨s', hs'⟩ := hm
        rw [← hs', replaceL_match old s' hne]
        have hflag : flag = true := by
          have hp : old.isPrefixOf (c :: cs) = true := by
            rw [List.isPrefixOf_iff_prefix]
            exact ⟨s', hs'⟩
          simp only [leftDelimited, hp, Bool.not_true, Bool.false_or, Bool.and_eq_true] at hJ2
          exact hJ2.1
        have hlen' : s'.length ≤ n := by
          have h2 := congrArg List.length hs'
          simp only [List.length_append, List.length_cons] at h2
          have h3 : 0 < old.length := List.length_pos.2 hne
          simp only [List.length_cons] at hlen
          omega
        rcases List.eq_nil_or_concat old with ho | ⟨o0, x, ho⟩
        · exact absurd ho hne
        have hJ2' : leftDelimited old false s' = true := by
          have hx : isSpace x = false := hold x (by rw [ho]; simp)
          have e : old ++ s' = o0 ++ x :: s' := by
            rw [ho, List.concat_eq_append]
            simp
          rw [← hs', e] at hJ2
          have := leftDelimited_append old o0 flag x s' hJ2
          rw [hx] at this
          exact this
        apply ih s' acc false hlen' _ hJ2' (by simp)
        intro pre post heq
        rcases List.append_eq_append_iff.1 heq with ⟨a', hpre, _⟩ | ⟨c', hacc, hrest⟩
        · exact ⟨a', hpre.symm⟩
        · by_cases hc' : c' = []
          · subst hc'
            simp only [List.append_nil] at hacc
            rw [hacc]
          · exfalso
            rcases List.append_eq_append_iff.1 hrest with ⟨a'', hc'', _⟩ | ⟨c'', hold', _⟩
            · have hpre := hJ1 pre (a'' ++ (c :: cs)) (by
                rw [hacc, hc'']
                simp only [List.append_assoc])
              have h1 := hpre.length_le
              rw [hacc, hc''] at h1
              simp only [List.length_append] at h1
              have h3 : 0 < old.length := List.length_pos.2 hne
              omega
            · rcases hJ3 hflag with hnil | ⟨p, w, hp, hw⟩
              · rw [hnil] at hacc
                have : c' = [] := (List.append_eq_nil.1 hacc.symm).2
                exact hc' this
              · have hwc : w ∈ c' := last_mem_of_append_eq pre c' p w hc' (by rw [← hacc, hp])
                have hwo : w ∈ old := by rw [hold']; exact List.mem_append_left _ hwc
                rw [hold w hwo] at hw
                cases hw
      · rw [replaceL_nomatch old [] c cs hm]
        have hJ2' : leftDelimited old (isSpace c) cs = true := by
          simp only [leftDelimited, Bool.and_eq_true] at hJ2
          exact hJ2.2
        have key := ih cs (acc ++ [c]) (isSpace c) (by simpa using hlen) ?_ hJ2' ?_
        · simpa using key
        · intro pre post heq
          rw [List.append_assoc, List.singleton_append] at heq
          obtain ⟨p2, hp2⟩ := hJ1 pre post heq
          rcases p2 with _ | ⟨y, p3⟩
          · exfalso
            simp only [List.append_nil] at hp2
            rw [← hp2] at heq
            exact hm ⟨post, (List.append_cancel_left heq).symm⟩
          · rw [← hp2, List.append_assoc] at heq
            have h4 := List.append_cancel_left heq
            simp only [List.cons_append, List.cons.injEq] at h4
            rw [← hp2, h4.1]
            exact ⟨p3, by simp⟩
        · intro hsp
          exact Or.inr ⟨acc, c, rfl, hsp⟩

theorem Replace_no_occurrence (c t : String) (hne : t.data ≠ [])
    (hfree : ∀ x ∈ t.data, isSpace x = false)
    (hdel : leftDelimited t.data true c.data = true) :
    Contains (TrimSpace (Replace c t "")) t = false := by
  rw [← Bool.not_eq_true, Contains_iff]
  intro hin
  have h1 := hin.trans (TrimSpace_sub (Replace c t ""))
  have h2 : (Replace c t "").data = replaceL t.data [] 0 c.data := by
    simp [Replace, hne]
  rw [h2] at h1
  have := replaceL_no_occurrence t.data hne hfree c.data.length c.data [] true (le_refl _)
    (fun pre _ _ => List.nil_prefix) hdel (fun _ => Or.inl rfl)
  exact this (by simpa using h1)

/-! ## The JSON tree builder -/

theorem AddAttributeMap_eq (a : AttributeMap) :
    ∀ (h : Heap) (he : Ptr) (o : UIObject), h[he]? = some o →
      AddAttributeMap h he a =
        some (h.set he { o with attrs := a.foldl (fun m e => mapSet m e.1 e.2) o.attrs }) := by
  induction a with
  | nil =>
    intro h he o hp
    simp only [AddAttributeMap, List.foldl_nil]
    rw [set_self_eq h he o hp]
  | cons e rest ih =>
    intro h he o hp
    obtain ⟨k, v⟩ := e
    have hget : (h.set he { o with attrs := mapSet o.attrs k v })[he]? =
        some { o with attrs := mapSet o.attrs k v } := by
      simp [List.getElem?_set, lt_of_get hp]
    simp only [AddAttributeMap, AddAttribute, hp, Option.bind_eq_bind, Option.some_bind]
    rw [ih _ he _ hget, List.set_set]
    rfl

theorem json_step_eq (h : Heap) (uio : Ptr) (v : elementStruct) (r : Nat) (o : UIObject)
    (hp : h[uio]? = some o) (hid : v.Id.length ≠ 0) :
    (AddAttributeMap (NewElement h v.Etype v.Id v.ClassName v.Text).1
        (NewElement h v.Etype v.Id v.ClassName v.Text).2 v.Attributes).bind
      (fun h1 => AddChild h1 uio (NewElement h v.Etype v.Id v.ClassName v.Text).2 r) =
    some (h.set uio { o with children := mapSet o.children v.Id h.length,
                             childOrder := o.childOrder ++ [h.length] } ++ [docNode v]) := by
  have hlt := lt_of_get hp
  have hne : ¬ uio = h.length := Nat.ne_of_lt hlt
  rw [AddAttributeMap_eq _ _ _ _ (NewElement_get_new h v.Etype v.Id v.ClassName v.Text)]
  simp only [Option.some_bind, NewElement]
  have hg1 : ∀ (n n2 : UIObject), (h ++ [n]).set h.length n2 = h ++ [n2] := by
    intro n n2
    rw [List.set_append_right _ _ (le_refl _)]
    simp
  rw [hg1]
  have hp1 : (h ++ [docNode v])[uio]? = some o := by
    rw [List.getElem?_append_left hlt]
    exact hp
  have hc1 : (h ++ [docNode v])[h.length]? = some (docNode v) := by simp
  have hnew : newId (docNode v) r = v.Id := by
    simp [newId, UIObject.Id, docNode, hid]
  have hrec : ({ docNode v with id := v.Id } : UIObject) = docNode v := rfl
  change AddChild (h ++ [docNode v]) uio h.length r = _
  rw [AddChild_eq _ uio h.length r o _ hp1 hc1, hnew, hrec]
  simp only [hne, if_false]
  rw [hg1, List.set_append_left _ _ hlt]

theorem json_children_cons (h : Heap) (uio : Ptr) (v : elementStruct)
    (vs : List elementStruct) (rs : List Nat) :
    NewElementFromJSON.children h uio (v :: vs) rs =
      ((AddAttributeMap (NewElement h v.Etype v.Id v.ClassName v.Text).1
          (NewElement h v.Etype v.Id v.ClassName v.Text).2 v.Attributes).bind
        (fun h1 => AddChild h1 uio (NewElement h v.Etype v.Id v.ClassName v.Text).2
          (rs.headD 0))).bind
        (fun h2 => NewElementFromJSON.children h2 uio vs rs.tail) := by
  simp only [NewElementFromJSON.children, Option.bind_eq_bind, Option.bind_assoc]

theorem forall2_mem_left {α β : Type} {R : α → β → Prop} {l1 : List α} {l2 : List β}
    (hf : List.Forall₂ R l1 l2) : ∀ a ∈ l1, ∃ b ∈ l2, R a b := by
  induction hf with
  | nil => intro a ha; cases ha
  | cons hab _ ih =>
    intro a ha
    rcases List.mem_cons.1 ha with rfl | ha
    · exact ⟨_, List.mem_cons_self _ _, hab⟩
    · obtain ⟨b, hb, hr⟩ := ih a ha
      exact ⟨b, List.mem_cons_of_mem _ hb, hr⟩

theorem forall2_mem_right {α β : Type} {R : α → β → Prop} {l1 : List α} {l2 : List β}
    (hf : List.Forall₂ R l1 l2) : ∀ b ∈ l2, ∃ a ∈ l1, R a b := by
  induction hf with
  | nil => intro b hb; cases hb
  | cons hab _ ih =>
    intro b hb
    rcases List.mem_cons.1 hb with rfl | hb
    · exact ⟨_, List.mem_cons_self _ _, hab⟩
    · obtain ⟨a, ha, hr⟩ := ih b hb
      exact ⟨a, List.mem_cons_of_mem _ ha, hr⟩

theorem json_children_spec (vs : List elementStruct) :
    ∀ (h : Heap) (uio : Ptr) (rs : List Nat) (o : UIObject), h[uio]? = some o →
      (∀ v ∈ vs, v.Id.length ≠ 0) → (vs.map elementStruct.Id).Nodup →
      (∀ v ∈ vs, v.Id ∉ mapKeys o.children) →
      ∃ h' o' ptrs, NewElementFromJSON.children h uio vs rs = some h' ∧ h'[uio]? = some o' ∧
        o'.children = o.children ++ List.zip (vs.map elementStruct.Id) ptrs ∧
        o'.childOrder = o.childOrder ++ ptrs ∧
        List.Forall₂ (fun v q => ∃ n, h'[q]? = some n ∧ n.id = v.Id ∧ n.text = v.Text)
          vs ptrs ∧
        (∀ (q : Ptr) (n : UIObject), h[q]? = some n →
          ∃ n' : UIObject, h'[q]? = some n' ∧ n'.id = n.id ∧ n'.text = n.text) := by
  induction vs with
  | nil =>
    intro h uio rs o hp _ _ _
    exact ⟨h, o, [], rfl, hp, by simp, by simp, List.Forall₂.nil,
      fun q n hq => ⟨n, hq, rfl, rfl⟩⟩
  | cons v vs ih =>
    intro h uio rs o hp hne hnd hfresh
    have hlt := lt_of_get hp
    have hidv : v.Id.length ≠ 0 := hne v (List.mem_cons_self _ _)
    have hfv : v.Id ∉ mapKeys o.children := hfresh v (List.mem_cons_self _ _)
    simp only [List.map_cons, List.nodup_cons] at hnd
    have hg2 : ∀ o2 : UIObject, (h.set uio o2 ++ [docNode v])[uio]? = some o2 := by
      intro o2
      rw [List.getElem?_append_left (by simpa using hlt)]
      simp [List.getElem?_set, hlt]
    have hfresh2 : ∀ w ∈ vs, w.Id ∉ mapKeys (mapSet o.children v.Id h.length) := by
      intro w hw hmem
      rw [mapSet_fresh _ _ _ hfv] at hmem
      simp only [mapKeys, List.map_append, List.map_cons, List.map_nil, List.mem_append,
        List.mem_singleton] at hmem
      rcases hmem with hm | hm
      · exact hfresh w (List.mem_cons_of_mem _ hw) hm
      · exact hnd.1 (List.mem_map.2 ⟨w, hw, hm⟩)
    obtain ⟨h', o', ptrs, hrun, hget, hch, hco, hfa, hframe⟩ :=
      ih _ uio rs.tail { o with children := mapSet o.children v.Id h.length, childOrder := o.childOrder ++ [h.length] }
        (hg2 _) (fun w hw => hne w (List.mem_cons_of_mem _ hw)) hnd.2 hfresh2
    have hnew : ∃ n, h'[h.length]? = some n ∧ n.id = v.Id ∧ n.text = v.Text := by
      apply hframe h.length (docNode v)
      rw [List.getElem?_append_right (by simp)]
      simp
    refine ⟨h', o', h.length :: ptrs, ?_, hget, ?_, ?_, List.Forall₂.cons hnew hfa, ?_⟩
    · rw [json_children_cons, json_step_eq h uio v (rs.headD 0) o hp hidv]
      exact hrun
    · rw [hch]
      simp only [mapSet_fresh _ _ _ hfv, List.map_cons, List.zip_cons_cons, List.append_assoc,
        List.singleton_append]
    · rw [hco]
      simp
    · intro q n hq
      have hql := lt_of_get hq
      by_cases hqu : q = uio
      · subst hqu
        rw [hp] at hq
        cases hq
        obtain ⟨n', hn', e1, e2⟩ := hframe q _ (hg2 _)
        exact ⟨n', hn', e1, e2⟩
      · apply hframe q n
        rw [List.getElem?_append_left (by simpa using hql)]
        have hqu2 : ¬ uio = q := fun e => hqu e.symm
        simp [List.getElem?_set, hqu2, hq]

theorem forall2_ids (h' : Heap) (vs : List elementStruct) (ptrs : List Ptr)
    (hf : List.Forall₂ (fun v q => ∃ n, h'[q]? = some n ∧ n.id = v.Id ∧ n.text = v.Text)
      vs ptrs) :
    ptrs.map (idOf h') = vs.map (fun v => some v.Id) := by
  induction hf with
  | nil => rfl
  | cons hab _ ih =>
    obtain ⟨n, hn, hid, _⟩ := hab
    simp only [List.map_cons, ih, idOf, hn, Option.map_some', UIObject.Id, hid]

/-! ## Trimmed class strings -/

theorem trim_head (c : List Char) (hne : (c.dropWhile isSpace).rdropWhile isSpace ≠ []) :
    ∃ a T, (c.dropWhile isSpace).rdropWhile isSpace = a :: T ∧ isSpace a = false := by
  obtain ⟨rest, hrest⟩ := List.rdropWhile_prefix isSpace (c.dropWhile isSpace)
  cases hT : (c.dropWhile isSpace).rdropWhile isSpace with
  | nil => exact absurd hT hne
  | cons a T =>
    refine ⟨a, T, rfl, ?_⟩
    rw [hT] at hrest
    have hD : c.dropWhile isSpace = a :: (T ++ rest) := by rw [← hrest]; simp
    have hnn : c.dropWhile isSpace ≠ [] := by rw [hD]; simp
    have := List.head_dropWhile_not isSpace c hnn
    simpa [hD] using this

theorem trim_last (c : List Char) (hne : (c.dropWhile isSpace).rdropWhile isSpace ≠ []) :
    ∃ T d, (c.dropWhile isSpace).rdropWhile isSpace = T ++ [d] ∧ isSpace d = false := by
  have h1 := List.rdropWhile_last_not isSpace (c.dropWhile isSpace) hne
  rcases List.eq_nil_or_concat ((c.dropWhile isSpace).rdropWhile isSpace) with hnil | ⟨T, d, hT⟩
  · exact absurd hnil hne
  · rw [List.concat_eq_append] at hT
    refine ⟨T, d, hT, ?_⟩
    have h2 : ((c.dropWhile isSpace).rdropWhile isSpace).getLast hne = d := by
      simp [hT]
    rw [h2] at h1
    simpa using h1

theorem trimL_of_ends (l l1 l2 : List Char) (a d : Char) (h1 : l = a :: l1)
    (ha : isSpace a = false) (h2 : l = l2 ++ [d]) (hd : isSpace d = false) :
    (l.dropWhile isSpace).rdropWhile isSpace = l := by
  have e1 : l.dropWhile isSpace = l := by
    rw [h1]
    simp [List.dropWhile_cons, ha]
  rw [e1, h2]
  exact List.rdropWhile_concat_neg _ _ _ (by simp [hd])

theorem trimL_free (l : List Char) (hfree : ∀ x ∈ l, isSpace x = false) :
    (l.dropWhile isSpace).rdropWhile isSpace = l := by
  rcases List.eq_nil_or_concat l with hnil | ⟨T, d, hT⟩
  · subst hnil
    simp [List.rdropWhile]
  · rw [List.concat_eq_append] at hT
    cases hl : l with
    | nil => rw [hl] at hT; simp at hT
    | cons a l1 =>
      rw [← hl]
      exact trimL_of_ends l l1 T a d hl (hfree a (by rw [hl]; simp)) hT
        (hfree d (by rw [hT]; simp))

theorem trimL_join (c t : List Char) (sp : Char)
    (hc : (c.dropWhile isSpace).rdropWhile isSpace ≠ [])
    (ht : (t.dropWhile isSpace).rdropWhile isSpace ≠ []) :
    ((((c.dropWhile isSpace).rdropWhile isSpace ++ [sp] ++
        (t.dropWhile isSpace).rdropWhile isSpace).dropWhile isSpace).rdropWhile isSpace) =
      (c.dropWhile isSpace).rdropWhile isSpace ++ [sp] ++
        (t.dropWhile isSpace).rdropWhile isSpace := by
  obtain ⟨a, A, hA, ha⟩ := trim_head c hc
  obtain ⟨B, d, hB, hd⟩ := trim_last t ht
  apply trimL_of_ends _ (A ++ [sp] ++ (t.dropWhile isSpace).rdropWhile isSpace)
    ((c.dropWhile isSpace).rdropWhile isSpace ++ [sp] ++ B) a d _ ha _ hd
  · rw [hA]; simp
  · rw [hB]; simp

theorem trimL_append_space (c : List Char) (sp : Char) (hsp : isSpace sp = true)
    (hc : (c.dropWhile isSpace).rdropWhile isSpace = c) :
    ((c ++ [sp]).dropWhile isSpace).rdropWhile isSpace = c := by
  cases hl : c with
  | nil => simp [List.dropWhile_cons, hsp, List.rdropWhile]
  | cons a l1 =>
    have hne : (c.dropWhile isSpace).rdropWhile isSpace ≠ [] := by rw [hc, hl]; simp
    obtain ⟨a', T, hT, ha'⟩ := trim_head c hne
    rw [hc, hl] at hT
    have haa : a = a' := by simpa using (List.cons.inj hT).1
    have e1 : ((a :: l1) ++ [sp]).dropWhile isSpace = (a :: l1) ++ [sp] := by
      simp [List.dropWhile_cons, haa, ha']
    rw [e1, List.rdropWhile_concat_pos _ _ _ hsp]
    have hr : (c.rdropWhile isSpace) = c := by
      have := List.rdropWhile_idempotent isSpace (c.dropWhile isSpace)
      rw [hc] at this
      exact this
    rw [← hl]
    exact hr

theorem replaceL_only_final (t : List Char) (hne : t ≠ []) (u : List Char) :
    (∀ pre post, u ++ t = pre ++ (t ++ post) → post = []) →
      replaceL t [] 0 (u ++ t) = u := by
  induction u with
  | nil =>
    intro _
    have := replaceL_match t [] hne
    simpa [replaceL] using this
  | cons a u ih =>
    intro hfin
    have hnm : ¬ t <+: a :: (u ++ t) := by
      rintro ⟨post, hpost⟩
      have h1 := hfin [] post (by simpa using hpost.symm)
      subst h1
      have h2 := congrArg List.length hpost
      simp at h2
      omega
    rw [List.cons_append, replaceL_nomatch t [] a (u ++ t) hnm, ih]
    intro pre post heq
    exact hfin (a :: pre) post (by simp [heq])

theorem final_only (c t : List Char) (sp : Char) (hne : t ≠ [])
    (hfree : ∀ x ∈ t, isSpace x = false) (hsp : isSpace sp = true) (habs : ¬ t <:+: c) :
    ∀ pre post, (c ++ [sp]) ++ t = pre ++ (t ++ post) → post = [] := by
  intro pre post heq
  by_contra hpost
  rw [← List.append_assoc] at heq
  rcases List.append_eq_append_iff.1 heq with ⟨a', h1, h2⟩ | ⟨c', h1, h2⟩
  · -- pre ++ t = (c ++ [sp]) ++ a' and t = a' ++ post
    have hlen : a'.length < t.length := by
      have := congrArg List.length h2
      simp at this
      have : 0 < post.length := List.length_pos.2 hpost
      omega
    rcases List.append_eq_append_iff.1 h1 with ⟨b', h3, h4⟩ | ⟨b', h3, h4⟩
    · -- c ++ [sp] = pre ++ b' , t = b' ++ a'
      have hb : b' ≠ [] := by
        intro hb
        subst hb
        simp at h4
        rw [h4] at hlen
        exact lt_irrefl _ hlen
      have hmem : sp ∈ b' := last_mem_of_append_eq pre b' c sp hb h3.symm
      have := hfree sp (by rw [h4]; exact List.mem_append_left _ hmem)
      rw [hsp] at this
      cases this
    · -- pre = (c ++ [sp]) ++ b', a' = b' ++ t
      have := congrArg List.length h4
      simp at this
      omega
  · -- c ++ [sp] = pre ++ t ++ c', post = c' ++ t
    rcases List.eq_nil_or_concat c' with hnil | ⟨c'', x, hc'⟩
    · subst hnil
      simp only [List.append_nil] at h1
      have hmem : sp ∈ t := last_mem_of_append_eq pre t c sp hne h1.symm
      have := hfree sp hmem
      rw [hsp] at this
      cases this
    · rw [List.concat_eq_append] at hc'
      subst hc'
      rw [← List.append_assoc] at h1
      have := (List.append_inj' h1 rfl).1
      exact habs ⟨pre, c'', by rw [this]⟩

/-! ## The JSON tree builder on arbitrary documents -/

theorem json_step_gen (h : Heap) (uio : Ptr) (v : elementStruct) (r : Nat) (o : UIObject)
    (hp : h[uio]? = some o) :
    (AddAttributeMap (NewElement h v.Etype v.Id v.ClassName v.Text).1
        (NewElement h v.Etype v.Id v.ClassName v.Text).2 v.Attributes).bind
      (fun h1 => AddChild h1 uio (NewElement h v.Etype v.Id v.ClassName v.Text).2 r) =
    some (h.set uio { o with children := mapSet o.children (newId (docNode v) r) h.length,
                             childOrder := o.childOrder ++ [h.length] } ++
          [{ docNode v with id := newId (docNode v) r }]) := by
  have hlt := lt_of_get hp
  have hne : ¬ uio = h.length := Nat.ne_of_lt hlt
  rw [AddAttributeMap_eq _ _ _ _ (NewElement_get_new h v.Etype v.Id v.ClassName v.Text)]
  simp only [Option.some_bind, NewElement]
  have hg1 : ∀ (n n2 : UIObject), (h ++ [n]).set h.length n2 = h ++ [n2] := by
    intro n n2
    rw [List.set_append_right _ _ (le_refl _)]
    simp
  rw [hg1]
  have hp1 : (h ++ [docNode v])[uio]? = some o := by
    rw [List.getElem?_append_left hlt]
    exact hp
  have hc1 : (h ++ [docNode v])[h.length]? = some (docNode v) := by simp
  change AddChild (h ++ [docNode v]) uio h.length r = _
  rw [AddChild_eq _ uio h.length r o _ hp1 hc1]
  simp only [hne, if_false]
  rw [hg1, List.set_append_left _ _ hlt]

theorem json_children_total (vs : List elementStruct) :
    ∀ (h : Heap) (uio : Ptr) (rs : List Nat) (o : UIObject), h[uio]? = some o →
      ∃ h' o', NewElementFromJSON.children h uio vs rs = some h' ∧ h'[uio]? = some o' ∧
        o'.text = o.text ∧ o'.id = o.id ∧ o'.«class» = o.«class» ∧ o'.attrs = o.attrs ∧
        o'.contentType = o.contentType ∧
        (vs = [] → o'.children = o.children ∧ o'.childOrder = o.childOrder) := by
  induction vs with
  | nil =>
    intro h uio rs o hp
    exact ⟨h, o, rfl, hp, rfl, rfl, rfl, rfl, rfl, fun _ => ⟨rfl, rfl⟩⟩
  | cons v vs ih =>
    intro h uio rs o hp
    have hlt := lt_of_get hp
    have hg2 : ∀ (o2 n : UIObject), (h.set uio o2 ++ [n])[uio]? = some o2 := by
      intro o2 n
      rw [List.getElem?_append_left (by simpa using hlt)]
      simp [List.getElem?_set, hlt]
    obtain ⟨h', o', hrun, hget, e1, e2, e3, e4, e5, _⟩ := ih _ uio rs.tail _ (hg2 { o with children := mapSet o.children (newId (docNode v) (rs.headD 0)) h.length, childOrder := o.childOrder ++ [h.length] } { docNode v with id := newId (docNode v) (rs.headD 0) })
    refine ⟨h', o', ?_, hget, e1, e2, e3, e4, e5, fun hnil => by cases hnil⟩
    rw [json_children_cons, json_step_gen h uio v (rs.headD 0) o hp]
    exact hrun

theorem fold_mapSet_get (a : AttributeMap) :
    ∀ (m : AttributeMap) (k : String), (mapKeys a).Nodup →
      mapGet (a.foldl (fun m e => mapSet m e.1 e.2) m) k =
        (match mapGet a k with
         | some x => some x
         | none => mapGet m k) := by
  induction a with
  | nil =>
    intro m k _
    simp [mapGet]
  | cons e rest ih =>
    intro m k hnd
    obtain ⟨k1, v1⟩ := e
    simp only [mapKeys, List.map_cons, List.nodup_cons] at hnd
    rw [List.foldl_cons, ih _ k hnd.2]
    by_cases hk : k1 = k
    · subst hk
      have hnone : mapGet rest k1 = none := mapGet_none rest k1 hnd.1
      have hcons : mapGet ((k1, v1) :: rest) k1 = some v1 := by
        simp [mapGet, List.find?_cons]
      rw [hnone, hcons]
      exact mapGet_mapSet _ _ _
    · have hk2 : k ≠ k1 := fun e => hk e.symm
      have hcons : mapGet ((k1, v1) :: rest) k = mapGet rest k := by
        simp [mapGet, List.find?_cons, hk]
      rw [hcons, mapGet_mapSet_ne _ _ _ _ hk2]

theorem json_root_eq (h : Heap) (eBuf : elementStruct) :
    AddAttributeMap (NewElement h eBuf.Etype eBuf.Id eBuf.ClassName eBuf.Text).1
      (NewElement h eBuf.Etype eBuf.Id eBuf.ClassName eBuf.Text).2 eBuf.Attributes =
      some (h ++ [docNode eBuf]) := by
  rw [AddAttributeMap_eq _ _ _ _ (NewElement_get_new h eBuf.Etype eBuf.Id eBuf.ClassName
    eBuf.Text)]
  simp only [NewElement]
  rw [List.set_append_right _ _ (le_refl _)]
  simp [docNode]

theorem NewElementFromJSON_some (unmarshal : String → Option elementStruct) (h : Heap)
    (s : String) (rs : List Nat) (eBuf : elementStruct) (hu : unmarshal s = some eBuf) :
    ∃ h' n, NewElementFromJSON unmarshal h s rs = some (h', some h.length) ∧
      h'[h.length]? = some n ∧ n.text = eBuf.Text ∧ n.id = eBuf.Id ∧
      n.«class» = eBuf.ClassName ∧ n.contentType = eBuf.Etype ∧
      n.attrs = eBuf.Attributes.foldl (fun m e => mapSet m e.1 e.2) [] ∧
      (eBuf.Children = [] → n.children = [] ∧ n.childOrder = []) := by
  have hp : (h ++ [docNode eBuf])[h.length]? = some (docNode eBuf) := by simp
  obtain ⟨h', n, hrun, hget, e1, e2, e3, e4, e5, e6⟩ :=
    json_children_total eBuf.Children (h ++ [docNode eBuf]) h.length rs (docNode eBuf) hp
  refine ⟨h', n, ?_, hget, e1, e2, e3, e5, e4, e6⟩
  simp only [NewElementFromJSON, hu, Option.bind_eq_bind, json_root_eq, Option.some_bind]
  simp only [NewElement] at hrun ⊢
  rw [hrun]
  rfl

/-! ## Lookup and order list when identities repeat -/

theorem mapKeys_mapSet {β : Type} (m : List (String × β)) (k : String) (v : β) :
    mapKeys (mapSet m k v) = if k ∈ mapKeys m then mapKeys m else mapKeys m ++ [k] := by
  by_cases hk : k ∈ mapKeys m
  · rw [if_pos hk]
    unfold mapSet
    rw [if_pos ((any_key_iff m k).2 hk)]
    simp only [mapKeys, List.map_map]
    apply List.map_congr_left
    intro e _
    by_cases he : e.1 = k
    · simp [he]
    · simp [he]
  · rw [if_neg hk, mapSet_fresh m k v hk]
    simp [mapKeys]

theorem mapKeys_mapSet_nodup {β : Type} (m : List (String × β)) (k : String) (v : β)
    (hnd : (mapKeys m).Nodup) : (mapKeys (mapSet m k v)).Nodup := by
  rw [mapKeys_mapSet]
  by_cases hk : k ∈ mapKeys m
  · rw [if_pos hk]
    exact hnd
  · rw [if_neg hk, List.nodup_append]
    refine ⟨hnd, List.nodup_singleton _, ?_⟩
    intro x hx1 hx2
    rw [List.mem_singleton] at hx2
    subst hx2
    exact hk hx1

theorem mapKeys_mapSet_mem {β : Type} (m : List (String × β)) (k k0 : String) (v : β)
    (hk0 : k0 ∈ mapKeys m ∨ k0 = k) : k0 ∈ mapKeys (mapSet m k v) := by
  rw [mapKeys_mapSet]
  by_cases hk : k ∈ mapKeys m
  · rw [if_pos hk]
    rcases hk0 with h1 | h1
    · exact h1
    · rw [h1]; exact hk
  · rw [if_neg hk, List.mem_append, List.mem_singleton]
    exact hk0

theorem AddChild_node (h : Heap) (he ui : Ptr) (r : Nat) (o u : UIObject)
    (hp : h[he]? = some o) (hc : h[ui]? = some u) (h' : Heap)
    (hadd : AddChild h he ui r = some h') (q : Ptr) (o2 : UIObject) (hq : h'[q]? = some o2) :
    ∃ o0, h[q]? = some o0 ∧
      o2.children = (if q = he then mapSet o0.children (newId u r) ui else o0.children) ∧
      o2.childOrder = (if q = he then o0.childOrder ++ [ui] else o0.childOrder) := by
  rw [AddChild_eq h he ui r o u hp hc] at hadd
  cases hadd
  have hlt := lt_of_get hc
  have hlt2 := lt_of_get hp
  by_cases hqe : q = he
  · subst hqe
    rw [List.getElem?_set, if_pos rfl, List.length_set, if_pos hlt2] at hq
    cases hq
    exact ⟨o, hp, by simp, by simp⟩
  · have hqe2 : ¬ he = q := fun e => hqe e.symm
    rw [List.getElem?_set, if_neg hqe2] at hq
    by_cases hqu : q = ui
    · subst hqu
      rw [List.getElem?_set, if_pos rfl, if_pos hlt] at hq
      cases hq
      exact ⟨u, hc, by simp [hqe], by simp [hqe]⟩
    · have hqu2 : ¬ ui = q := fun e => hqu e.symm
      rw [List.getElem?_set, if_neg hqu2] at hq
      exact ⟨o2, hq, by simp [hqe], by simp [hqe]⟩

theorem BInv_AddChild (h : Heap) (he ui : Ptr) (r : Nat) (h' : Heap) (hI : BInv h)
    (hadd : AddChild h he ui r = some h') : BInv h' := by
  cases hc : h[ui]? with
  | none => simp [AddChild, hc] at hadd
  | some u =>
    cases hp : h[he]? with
    | none =>
      exfalso
      have hlt := lt_of_get hc
      by_cases hz : u.id.length = 0
      · by_cases hew : ui = he
        · subst hew
          rw [hp] at hc
          cases hc
        · simp [AddChild, hc, hp, hz, UIObject.Id, ContentType, generateId, SetId,
            List.getElem?_set, hlt, hew] at hadd
      · simp [AddChild, hc, hp, hz, UIObject.Id] at hadd
    | some o =>
      have hid := AddChild_idOf h he ui r o u hp hc h' hadd
      have hui : idOf h' ui = some (newId u r) := by rw [hid]; simp
      -- a node of some order list keeps its identity
      have hkeep : ∀ (p0 : Ptr) (o0 : UIObject), h[p0]? = some o0 → ∀ c ∈ o0.childOrder,
          idOf h' c = idOf h c := by
        intro p0 o0 hp0 c hcm
        rw [hid]
        by_cases hcu : c = ui
        · rw [if_pos hcu]
          obtain ⟨k, hk, hidk⟩ := (hI p0 o0 hp0).2.2 c hcm
          obtain ⟨e, he1, he2⟩ := List.mem_map.1 hk
          have hlen := ((hI p0 o0 hp0).2.1 e he1).2.1
          rw [hcu] at hidk ⊢
          have huid : u.id = k := by simpa [idOf, hc, UIObject.Id] using hidk
          have hnz : ¬ u.id.length = 0 := by
            rw [huid, ← he2]
            exact hlen
          simp [newId, UIObject.Id, hnz, idOf, hc]
        · rw [if_neg hcu]
      intro q o2 hq
      obtain ⟨o0, hq0, ech, eco⟩ := AddChild_node h he ui r o u hp hc h' hadd q o2 hq
      obtain ⟨a, b, c⟩ := hI q o0 hq0
      by_cases hqe : q = he
      · rw [if_pos hqe] at ech eco
        refine ⟨?_, ?_, ?_⟩
        · rw [ech]
          exact mapKeys_mapSet_nodup _ _ _ a
        · intro e hmem
          rw [ech] at hmem
          rw [eco]
          rcases mem_mapSet _ _ _ _ hmem with he1 | ⟨he1, _⟩
          · subst he1
            exact ⟨hui, newId_length u r, by simp⟩
          · obtain ⟨b1, b2, b3⟩ := b e he1
            exact ⟨by rw [hkeep q o0 hq0 e.2 b3]; exact b1, b2,
              List.mem_append_left _ b3⟩
        · intro x hx
          rw [eco] at hx
          rw [ech]
          rcases List.mem_append.1 hx with hx | hx
          · obtain ⟨k, hk, hidk⟩ := c x hx
            exact ⟨k, mapKeys_mapSet_mem _ _ _ _ (Or.inl hk),
              by rw [hkeep q o0 hq0 x hx]; exact hidk⟩
          · rw [List.mem_singleton] at hx
            subst hx
            exact ⟨newId u r, mapKeys_mapSet_mem _ _ _ _ (Or.inr rfl), hui⟩
      · rw [if_neg hqe] at ech eco
        refine ⟨by rw [ech]; exact a, ?_, ?_⟩
        · intro e hmem
          rw [ech] at hmem
          rw [eco]
          obtain ⟨b1, b2, b3⟩ := b e hmem
          exact ⟨by rw [hkeep q o0 hq0 e.2 b3]; exact b1, b2, b3⟩
        · intro x hx
          rw [eco] at hx
          rw [ech]
          obtain ⟨k, hk, hidk⟩ := c x hx
          exact ⟨k, hk, by rw [hkeep q o0 hq0 x hx]; exact hidk⟩

theorem BInv_NewElement (h : Heap) (cType id className text : String) (hI : BInv h) :
    BInv (NewElement h cType id className text).1 := by
  intro p o2 hp2
  simp only [NewElement] at hp2
  have hold : ∀ x s, idOf h x = some s → idOf (NewElement h cType id className text).1 x =
      some s := by
    intro x s hx
    have hlt2 : x < h.length := by
      cases hg : h[x]? with
      | none => simp [idOf, hg] at hx
      | some y => exact lt_of_get hg
    simp only [idOf, NewElement, List.getElem?_append_left hlt2]
    exact hx
  by_cases hlt : p < h.length
  · rw [List.getElem?_append_left hlt] at hp2
    obtain ⟨a, b, c⟩ := hI p o2 hp2
    refine ⟨a, fun e he => ⟨hold _ _ (b e he).1, (b e he).2.1, (b e he).2.2⟩, ?_⟩
    intro x hx
    obtain ⟨k, hk, hidk⟩ := c x hx
    exact ⟨k, hk, hold _ _ hidk⟩
  · rw [List.getElem?_append_right (not_lt.1 hlt)] at hp2
    cases hk : p - h.length with
    | zero =>
      rw [hk] at hp2
      simp only [List.getElem?_cons_zero, Option.some.injEq] at hp2
      subst hp2
      simp [mapKeys]
    | succ k =>
      rw [hk] at hp2
      simp at hp2

theorem BInv_shape (h h' : Heap) (hs : SameShape h h') (hI : BInv h) : BInv h' := by
  intro p o' hp
  obtain ⟨o, hq, _, _, e3, e4⟩ := SameShape_get h h' hs p o' hp
  obtain ⟨a, b, c⟩ := hI p o hq
  refine ⟨by rw [e3]; exact a, ?_, ?_⟩
  · intro e he
    rw [e3] at he
    rw [SameShape_idOf h h' hs, e4]
    exact b e he
  · intro x hx
    rw [e4] at hx
    obtain ⟨k, hk, hidk⟩ := c x hx
    exact ⟨k, by rw [e3]; exact hk, by rw [SameShape_idOf h h' hs]; exact hidk⟩

theorem BInv_AddChildren (ui : List Ptr) :
    ∀ (h : Heap) (he : Ptr) (rs : List Nat) (h' : Heap), BInv h →
      AddChildren h he ui rs = some h' → BInv h' := by
  induction ui with
  | nil =>
    intro h he rs h' hI hadd
    simp only [AddChildren, Option.some.injEq] at hadd
    subst hadd
    exact hI
  | cons c cs ih =>
    intro h he rs h' hI hadd
    cases h1 : AddChild h he c (rs.headD 0) with
    | none =>
      simp only [AddChildren, Option.bind_eq_bind] at hadd
      rw [h1] at hadd
      simp at hadd
    | some g =>
      simp only [AddChildren, Option.bind_eq_bind] at hadd
      rw [h1] at hadd
      simp only [Option.some_bind] at hadd
      exact ih g he rs.tail h' (BInv_AddChild h he c (rs.headD 0) g hI h1) hadd

theorem BInv_json_children (vs : List elementStruct) :
    ∀ (h : Heap) (uio : Ptr) (rs : List Nat) (h' : Heap), BInv h →
      NewElementFromJSON.children h uio vs rs = some h' → BInv h' := by
  induction vs with
  | nil =>
    intro h uio rs h' hI hrun
    simp only [NewElementFromJSON.children, Option.some.injEq] at hrun
    subst hrun
    exact hI
  | cons v vs ih =>
    intro h uio rs h' hI hrun
    simp only [NewElementFromJSON.children, Option.bind_eq_bind] at hrun
    cases h1 : AddAttributeMap (NewElement h v.Etype v.Id v.ClassName v.Text).1
        (NewElement h v.Etype v.Id v.ClassName v.Text).2 v.Attributes with
    | none =>
      rw [h1] at hrun
      simp at hrun
    | some g1 =>
      rw [h1] at hrun
      simp only [Option.some_bind] at hrun
      have hI1 : BInv g1 :=
        BInv_shape _ _ (SameShape_AddAttributeMap _ _ _ _ h1) (BInv_NewElement h _ _ _ _ hI)
      cases h2 : AddChild g1 uio (NewElement h v.Etype v.Id v.ClassName v.Text).2 (rs.headD 0) with
      | none =>
        rw [h2] at hrun
        simp at hrun
      | some g2 =>
        rw [h2] at hrun
        simp only [Option.some_bind] at hrun
        exact ih g2 uio rs.tail h' (BInv_AddChild g1 uio _ _ g2 hI1 h2) hrun

theorem BInv_NewElementFromJSON (unmarshal : String → Option elementStruct) (h : Heap)
    (s : String) (rs : List Nat) (h' : Heap) (p : Option Ptr) (hI : BInv h)
    (hrun : NewElementFromJSON unmarshal h s rs = some (h', p)) : BInv h' := by
  cases hu : unmarshal s with
  | none =>
    simp only [NewElementFromJSON, hu, Option.some.injEq, Prod.mk.injEq] at hrun
    rw [← hrun.1]
    exact hI
  | some eBuf =>
    simp only [NewElementFromJSON, hu, Option.bind_eq_bind] at hrun
    cases h1 : AddAttributeMap (NewElement h eBuf.Etype eBuf.Id eBuf.ClassName eBuf.Text).1
        (NewElement h eBuf.Etype eBuf.Id eBuf.ClassName eBuf.Text).2 eBuf.Attributes with
    | none =>
      rw [h1] at hrun
      simp at hrun
    | some g1 =>
      rw [h1] at hrun
      simp only [Option.some_bind] at hrun
      have hI1 : BInv g1 :=
        BInv_shape _ _ (SameShape_AddAttributeMap _ _ _ _ h1) (BInv_NewElement h _ _ _ _ hI)
      cases h2 : NewElementFromJSON.children g1
          (NewElement h eBuf.Etype eBuf.Id eBuf.ClassName eBuf.Text).2 eBuf.Children rs with
      | none =>
        rw [h2] at hrun
        simp at hrun
      | some g2 =>
        rw [h2] at hrun
        simp only [Option.some_bind, Option.some.injEq, Prod.mk.injEq] at hrun
        rw [← hrun.1]
        exact BInv_json_children eBuf.Children g1 _ rs g2 hI1 h2

theorem Built_BInv (h : Heap) (hb : Built h) : BInv h := by
  induction hb with
  | empty =>
    intro p o hp
    simp at hp
  | newElement h cType id className text _ ih => exact BInv_NewElement h _ _ _ _ ih
  | fromJSON unmarshal h s rs h' p _ hrun ih =>
    exact BInv_NewElementFromJSON unmarshal h s rs h' p ih hrun
  | addChild h he ui r h' _ hadd ih => exact BInv_AddChild h he ui r h' ih hadd
  | addChildren h he ui rs h' _ hadd ih => exact BInv_AddChildren ui h he rs h' ih hadd

theorem range_eq_mapGet (h : Heap) (id : String) (l : List (String × Ptr))
    (hall : ∀ e ∈ l, idOf h e.2 = some e.1) :
    GetChildById.range h id l = some (mapGet l id) := by
  induction l with
  | nil => rfl
  | cons e rest ih =>
    obtain ⟨k, c⟩ := e
    have hk := hall (k, c) (List.mem_cons_self _ _)
    cases hget : h[c]? with
    | none => simp [idOf, hget] at hk
    | some oc =>
      have hid : oc.Id = k := by simpa [idOf, hget] using hk
      have hrest := ih (fun e he => hall e (List.mem_cons_of_mem _ he))
      by_cases hki : k = id
      · subst hki
        simp [GetChildById.range, hget, hid, mapGet, List.find?_cons]
      · have hne : ¬ oc.Id = id := by rw [hid]; exact hki
        simp only [GetChildById.range, hget, Option.bind_eq_bind, Option.some_bind, if_neg hne,
          hrest]
        simp [mapGet, List.find?_cons, hki]

theorem mapGet_eq_some_iff {β : Type} (m : List (String × β)) (k : String) (v : β)
    (hnd : (mapKeys m).Nodup) : mapGet m k = some v ↔ (k, v) ∈ m := by
  induction m with
  | nil => simp [mapGet]
  | cons e rest ih =>
    obtain ⟨a, b⟩ := e
    simp only [mapKeys, List.map_cons, List.nodup_cons] at hnd
    by_cases hak : a = k
    · subst hak
      have h1 : mapGet ((a, b) :: rest) a = some b := by simp [mapGet, List.find?_cons]
      rw [h1]
      constructor
      · intro hb
        cases hb
        exact List.mem_cons_self _ _
      · intro hmem
        rcases List.mem_cons.1 hmem with heq | hmem
        · cases heq
          rfl
        · exact absurd (List.mem_map.2 ⟨(a, v), hmem, rfl⟩) hnd.1
    · have h1 : mapGet ((a, b) :: rest) k = mapGet rest k := by
        simp [mapGet, List.find?_cons, hak]
      rw [h1, ih hnd.2]
      constructor
      · intro hmem
        exact List.mem_cons_of_mem _ hmem
      · intro hmem
        rcases List.mem_cons.1 hmem with heq | hmem
        · cases heq
          exact absurd rfl hak
        · exact hmem

theorem mapGet_perm {β : Type} (m1 m2 : List (String × β)) (k : String)
    (hperm : m1.Perm m2) (hnd : (mapKeys m2).Nodup) : mapGet m1 k = mapGet m2 k := by
  have hnd1 : (mapKeys m1).Nodup := (hperm.map Prod.fst).nodup_iff.2 hnd
  apply Option.ext
  intro v
  simp only [Option.mem_def]
  rw [mapGet_eq_some_iff m1 k v hnd1, mapGet_eq_some_iff m2 k v hnd]
  exact hperm.mem_iff

/-! ## Content by type -/

theorem GetContentByType_loop_eq (h : Heap) (t : String) (l : List Ptr) :
    ∀ x : List Ptr, NonNil h l →
      GetContentByType.loop h t x l =
        some (x ++ l.filter (fun c => decide (ContentType h c = some t))) := by
  induction l with
  | nil =>
    intro x _
    simp [GetContentByType.loop]
  | cons c rest ih =>
    intro x hv
    have hc : c < h.length := hv c (List.mem_cons_self _ _)
    have hget : h[c]? = some h[c] := List.getElem?_eq_getElem hc
    have hrest : NonNil h rest := fun q hq => hv q (List.mem_cons_of_mem _ hq)
    simp only [GetContentByType.loop, hget, Option.bind_eq_bind, Option.some_bind]
    rw [ih _ hrest]
    by_cases ht : (h[c]).contentType = t
    · simp [ContentType, hget, ht, List.filter_cons]
    · simp [ContentType, hget, ht, List.filter_cons]

/-! ## Claims -/

/-- C1, as stated, fails: a parent that already holds a child under identity "a" still has
`ChildCount()` 1 after `AddChild` of another node with identity "a". -/
theorem C1_counterexample :
    ChildCount dupHeap 0 = some 1 ∧
      (AddChild dupHeap 0 2 0).bind (fun h => ChildCount h 0) = some 1 := by
  decide

/-- C1 (amended): for every node p and every child node c, `p.AddChild(c)` returns, and
afterwards `p.ChildCount()` is exactly one more than before when no child was stored under the
identity that c carries after the call (its own, or the generated one when it had none), and is
unchanged when that identity was already a key of the children lookup. -/
theorem AddChild_ChildCount (h : Heap) (he ui : Ptr) (r : Nat) (o u : UIObject)
    (hp : h[he]? = some o) (hc : h[ui]? = some u) :
    ∃ h', AddChild h he ui r = some h' ∧
      (h'[ui]?).map UIObject.Id = some (newId u r) ∧
      ChildCount h he = some o.children.length ∧
      ChildCount h' he =
        some (if newId u r ∈ mapKeys o.children then o.children.length
              else o.children.length + 1) := by
  obtain ⟨h', o', hadd, hget, hch, _⟩ := AddChild_get_self h he ui r o u hp hc
  refine ⟨h', hadd, AddChild_get_child h he ui r o u hp hc h' hadd, ?_, ?_⟩
  · simp [ChildCount, hp]
  · simp [ChildCount, hget, hch, mapSet_length]

/-- Witness for `AddChild_ChildCount`: adding the node "c1" to the empty node "p". -/
theorem AddChild_ChildCount_witness :
    ∃ h', AddChild h2 0 1 0 = some h' ∧
      (h'[1]?).map UIObject.Id = some "c1" ∧
      ChildCount h2 0 = some 0 ∧
      ChildCount h' 0 = some 1 :=
  AddChild_ChildCount h2 0 1 0 ⟨"", "p", "", [], "panel", [], []⟩ ⟨"A", "c1", "", [], "item", [], []⟩
    (by decide) (by decide)

/-- C2, as stated, fails: after `p.AddChild(x)`, `x.SetId("y")` and `p.AddChild(c)` with c
carrying identity "y", the lookup of p holds x under the stale key "x" and c under "y"; both
have `Id()` "y", and `GetChildById("y")`, when `range` visits x first, returns x (pointer 1)
instead of c (pointer 2); it returns c only when `range` happens to visit c first. -/
theorem C2_counterexample :
    (AddChild staleHeap 0 2 0).bind (fun h => idOf h 2) = some "y" ∧
      (AddChild staleHeap 0 2 0).bind (fun h => (h[0]?).map (fun n => n.children)) =
        some [("x", 1), ("y", 2)] ∧
      (AddChild staleHeap 0 2 0).bind (fun h => GetChildById h 0 "y") = some (some 1) ∧
      (AddChild staleHeap 0 2 0).bind
        (fun h => GetChildById.range h "y" [("y", 2), ("x", 1)]) = some (some 2) := by
  decide

/-- C2 (amended): for every node p whose lookup stores each child under that child's current
`Id()` and every child node c, `p.AddChild(c)` returns and afterwards `p.GetChildById(c.Id())`
returns c itself, in whatever order the lookup is scanned, including when a different child
with the same identity was already present (the new child replaces the old mapping). -/
theorem AddChild_GetChildById (h : Heap) (he ui : Ptr) (r : Nat) (o u : UIObject)
    (hp : h[he]? = some o) (hc : h[ui]? = some u)
    (hinv : ∀ e ∈ o.children, idOf h e.2 = some e.1) :
    ∃ h' o', AddChild h he ui r = some h' ∧ h'[he]? = some o' ∧
      idOf h' ui = some (newId u r) ∧
      mapGet o'.children (newId u r) = some ui ∧
      GetChildById h' he (newId u r) = some (some ui) ∧
      ∀ it, it.Perm o'.children → GetChildById.range h' (newId u r) it = some (some ui) := by
  obtain ⟨h', o', hadd, hget, hch, _⟩ := AddChild_get_self h he ui r o u hp hc
  have hid := AddChild_idOf h he ui r o u hp hc h' hadd
  have hui : idOf h' ui = some (newId u r) := by rw [hid]; simp
  have hall : ∀ e ∈ o'.children, ∃ s, idOf h' e.2 = some s ∧ (s = newId u r → e.2 = ui) := by
    intro e hmem
    rw [hch] at hmem
    rcases mem_mapSet _ _ _ _ hmem with he1 | ⟨he1, he2⟩
    · subst he1
      exact ⟨newId u r, hui, fun _ => rfl⟩
    · by_cases heq : e.2 = ui
      · exact ⟨newId u r, by rw [heq]; exact hui, fun _ => heq⟩
      · refine ⟨e.1, ?_, fun hs => absurd hs he2⟩
        rw [hid, if_neg heq]
        exact hinv e he1
  have hin : ∃ e ∈ o'.children, e.2 = ui := ⟨(newId u r, ui), by rw [hch]; exact mapSet_mem_new _ _ _, rfl⟩
  have hscan : ∀ it, it.Perm o'.children →
      GetChildById.range h' (newId u r) it = some (some ui) := by
    intro it hperm
    apply GetChildById_range_unique h' (newId u r) ui it _ _ hui
    · intro e hmem
      exact hall e (hperm.mem_iff.1 hmem)
    · obtain ⟨e, hmem, hec⟩ := hin
      exact ⟨e, hperm.mem_iff.2 hmem, hec⟩
  refine ⟨h', o', hadd, hget, hui, ?_, ?_, hscan⟩
  · rw [hch]
    exact mapGet_mapSet _ _ _
  · simp only [GetChildById, hget, Option.bind_eq_bind, Option.some_bind]
    exact hscan _ (List.Perm.refl _)

/-- Witness for `AddChild_GetChildById`: the node "p" holding a child "a" receives a second
node with identity "a" (pointer 2), which `GetChildById("a")` then returns. -/
theorem AddChild_GetChildById_witness :
    ∃ h' o', AddChild dupHeap 0 2 0 = some h' ∧ h'[0]? = some o' ∧
      idOf h' 2 = some "a" ∧
      mapGet o'.children "a" = some 2 ∧
      GetChildById h' 0 "a" = some (some 2) ∧
      ∀ it, it.Perm o'.children → GetChildById.range h' "a" it = some (some 2) :=
  AddChild_GetChildById dupHeap 0 2 0 ⟨"", "p", "", [], "panel", [("a", 1)], [1]⟩
    ⟨"second", "a", "", [], "item", [], []⟩ (by decide) (by decide) (by decide)

/-- C3, as stated, fails on nodes built with `NewElement`, `AddChild` and `SetId` only.
After adding two nodes that both carry identity "a", the ordered children have identities
"a", "a" while the lookup has the single key "a" (`ChildCount()` 1).  After adding a node
"x" and then calling `SetId("y")` on it, the ordered children have identities "y" while the
lookup has the key "x". -/
theorem C3_counterexample :
    ((AddChild dupHeap 0 2 0).bind
        (fun h => (ChildrenByOrder h 0).map (fun l => l.map (idOf h))) =
        some [some "a", some "a"] ∧
      (AddChild dupHeap 0 2 0).bind (fun h => (h[0]?).map (fun n => mapKeys n.children)) =
        some ["a"] ∧
      (AddChild dupHeap 0 2 0).bind (fun h => ChildCount h 0) = some 1) ∧
    ((ChildrenByOrder staleHeap 0).map (fun l => l.map (idOf staleHeap)) = some [some "y"] ∧
      (staleHeap[0]?).map (fun n => mapKeys n.children) = some ["x"]) := by
  decide

/-- C3 (amended): in every node of a heap built from `NewElement` or `NewElementFromJSON` by
any sequence of `AddChild`, `AddChildren`, `SetChildOrder` and the setters, in which every
`AddChild` adds a child under an identity that is not yet a key of the receiver's lookup and
`SetId` is applied only to nodes that are not stored as a child, the identities of
`ChildrenByOrder()` form a duplicate-free sequence that is a permutation of the keys of the
children lookup, and its length equals `ChildCount()`. -/
theorem Reach_order_keys (h : Heap) (hr : Reach h) (p : Ptr) (o : UIObject)
    (hp : h[p]? = some o) :
    ∃ l, ChildrenByOrder h p = some l ∧ (l.map (idOf h)).Nodup ∧
      (l.map (idOf h)).Perm ((mapKeys o.children).map some) ∧
      ChildCount h p = some l.length := by
  obtain ⟨a, b, c⟩ := Reach_Inv h hr p o hp
  have hmap : (o.children.map Prod.snd).map (idOf h) = (mapKeys o.children).map some := by
    simp only [mapKeys, List.map_map]
    apply List.map_congr_left
    intro e he
    exact (c e he).1
  have hperm : (o.childOrder.map (idOf h)).Perm ((mapKeys o.children).map some) := by
    rw [← hmap]
    exact (b.map (idOf h)).symm
  refine ⟨o.childOrder, by simp [ChildrenByOrder, hp], ?_, hperm, ?_⟩
  · exact hperm.nodup_iff.2 (a.map (Option.some_injective _))
  · have := b.length_eq
    simp only [List.length_map] at this
    simp [ChildCount, hp, this]

/-- Witness for `Reach_order_keys`: the node "p" after `AddChild` of "c1" and of "c2". -/
theorem Reach_order_keys_witness :
    ∃ l, ChildrenByOrder twoKids 0 = some l ∧ (l.map (idOf twoKids)).Nodup ∧
      (l.map (idOf twoKids)).Perm ((mapKeys [("c1", 1), ("c2", 2)]).map some) ∧
      ChildCount twoKids 0 = some l.length :=
  Reach_order_keys twoKids
    (Reach.addChild oneOfTwo 0 2 0 twoKids
      (Reach.addChild h2 0 1 0 oneOfTwo
        (Reach.newElement h1 "item" "c2" "" "B"
          (Reach.newElement h0 "item" "c1" "" "A"
            (Reach.newElement [] "panel" "p" "" "" Reach.empty)))
        ⟨⟨"", "p", "", [], "panel", [], []⟩, ⟨"A", "c1", "", [], "item", [], []⟩,
          by decide, by decide, by decide⟩
        (by decide))
      ⟨⟨"", "p", "", [], "panel", [("c1", 1)], [1]⟩, ⟨"B", "c2", "", [], "item", [], []⟩,
        by decide, by decide, by decide⟩
      (by decide))
    0 ⟨"", "p", "", [], "panel", [("c1", 1), ("c2", 2)], [1, 2]⟩ (by decide)

/-- C4: for every node and every list of (non-nil) child nodes, `AddChildren(list)` returns
and afterwards `ChildrenByOrder()` is the sequence it was before followed by the nodes of the
list in input order; `AddChild(c)` is the one-element case and appends c last. -/
theorem AddChildren_ChildrenByOrder (h : Heap) (he : Ptr) (ui : List Ptr) (rs : List Nat)
    (l : List Ptr) (hl : ChildrenByOrder h he = some l) (hv : NonNil h ui) :
    (∃ h', AddChildren h he ui rs = some h' ∧ ChildrenByOrder h' he = some (l ++ ui)) ∧
    (∀ c r, c < h.length →
      ∃ h', AddChild h he c r = some h' ∧ AddChildren h he [c] [r] = some h' ∧
        ChildrenByOrder h' he = some (l ++ [c])) := by
  refine ⟨AddChildren_order ui h he rs l hl hv, ?_⟩
  intro c r hc
  have hv1 : NonNil h [c] := fun q hq => by
    rw [List.mem_singleton] at hq
    rw [hq]; exact hc
  obtain ⟨h', hadds, hres⟩ := AddChildren_order [c] h he [r] l hl hv1
  refine ⟨h', ?_, hadds, hres⟩
  cases hadd : AddChild h he c r with
  | none => simp [AddChildren, hadd] at hadds
  | some g => simpa [AddChildren, hadd] using hadds

/-- Witness for `AddChildren_ChildrenByOrder`: the node "p" and the list "c1", "c2". -/
theorem AddChildren_ChildrenByOrder_witness :
    (∃ h', AddChildren h2 0 [1, 2] [] = some h' ∧ ChildrenByOrder h' 0 = some ([] ++ [1, 2])) ∧
    (∀ c r, c < h2.length →
      ∃ h', AddChild h2 0 c r = some h' ∧ AddChildren h2 0 [c] [r] = some h' ∧
        ChildrenByOrder h' 0 = some ([] ++ [c])) :=
  AddChildren_ChildrenByOrder h2 0 [1, 2] [] [] (by decide) (by decide)

/-- C5, at the claim's own example: on the node whose ordered children are "c1", "c2", the call
`SetChildOrder("c2", "c1")` does not return (nil dereference in the loop) instead of
reordering them. -/
theorem SetChildOrder_c2_c1 :
    ChildrenByOrder twoKids 0 = some [1, 2] ∧ idOf twoKids 1 = some "c1" ∧
      idOf twoKids 2 = some "c2" ∧ SetChildOrder twoKids 0 "c2" "c1" = none := by
  decide

/-- C6: for every node (with non-nil children) and every pair of identities of which at least
one is not the identity of a current child, `SetChildOrder(thisId, beforeId)` returns normally
and leaves the whole heap, hence `ChildrenByOrder()` and the children lookup, as it was. -/
theorem SetChildOrder_absent (h : Heap) (he : Ptr) (thisId beforeId : String) (o : UIObject)
    (hp : h[he]? = some o) (hv : NonNil h o.childOrder)
    (habs : (∀ c ∈ o.childOrder, idOf h c ≠ some thisId) ∨
            (∀ c ∈ o.childOrder, idOf h c ≠ some beforeId)) :
    ∃ h', SetChildOrder h he thisId beforeId = some h' ∧ h' = h ∧
      ChildrenByOrder h' he = some o.childOrder ∧
      (h'[he]?).map (fun n => n.children) = some o.children := by
  have hnn : SetChildOrder h he thisId beforeId ≠ none := by
    rw [Ne, SetChildOrder_none_iff h he thisId beforeId o hp hv]
    rintro ⟨⟨v, hv1, hv2⟩, ⟨w, hw1, hw2⟩⟩
    rcases habs with ha | ha
    · exact ha v hv1 hv2
    · exact ha w hw1 hw2
  cases hres : SetChildOrder h he thisId beforeId with
  | none => exact absurd hres hnn
  | some h' =>
    have he' := SetChildOrder_some h he thisId beforeId h' hres
    subst he'
    exact ⟨h', rfl, rfl, by simp [ChildrenByOrder, hp], by simp [hp]⟩

/-- Witness for `SetChildOrder_absent`: children "c1", "c2" and the call
`SetChildOrder("c2", "zz")`. -/
theorem SetChildOrder_absent_witness :
    ∃ h', SetChildOrder twoKids 0 "c2" "zz" = some h' ∧ h' = twoKids ∧
      ChildrenByOrder h' 0 = some [1, 2] ∧
      (h'[0]?).map (fun n => n.children) = some [("c1", 1), ("c2", 2)] :=
  SetChildOrder_absent twoKids 0 "c2" "zz" ⟨"", "p", "", [], "panel", [("c1", 1), ("c2", 2)], [1, 2]⟩
    (by decide) (by decide) (Or.inr (by decide))

/-- C7: on the node whose ordered children are "c1", "c2", `SetChildOrder(t, b)` fails at
run time exactly when both `t` and `b` are identities of children; the loop then runs its
body once more with the nil element behind the end of the list. -/
theorem SetChildOrder_twoKids_panics (t b : String) :
    SetChildOrder twoKids 0 t b = none ↔ (t = "c1" ∨ t = "c2") ∧ (b = "c1" ∨ b = "c2") := by
  rw [SetChildOrder_none_iff twoKids 0 t b
    ⟨"", "p", "", [], "panel", [("c1", 1), ("c2", 2)], [1, 2]⟩ (by decide) (by decide)]
  have e1 : idOf twoKids 1 = some "c1" := by decide
  have e2 : idOf twoKids 2 = some "c2" := by decide
  simp only [List.mem_cons, List.mem_singleton, exists_eq_or_imp, exists_eq_left, e1, e2,
    Option.some.injEq, List.not_mem_nil, false_and, exists_false, or_false]
  constructor
  · rintro ⟨a, c⟩
    exact ⟨a.imp Eq.symm Eq.symm, c.imp Eq.symm Eq.symm⟩
  · rintro ⟨a, c⟩
    exact ⟨a.imp Eq.symm Eq.symm, c.imp Eq.symm Eq.symm⟩

/-- C8: on the node with the single child "c1", `SetChildOrder("c1", "c1")` does not return
(nil dereference), while with an identity that no child carries it is a no-op. -/
theorem SetChildOrder_same_id :
    ChildrenByOrder oneKid 0 = some [1] ∧ idOf oneKid 1 = some "c1" ∧
      SetChildOrder oneKid 0 "c1" "c1" = none ∧
      SetChildOrder oneKid 0 "zz" "zz" = some oneKid := by
  decide

/-- C9: for every finite tree rooted at r (depth at most n, recursion allowed to go that
deep) and every identity id, `r.SearchChildrenById(id)` returns; it returns a node if and only
if r itself or some descendant of r at any depth has `Id()` equal to id, and a node it returns
belongs to the subtree of r and has `Id()` equal to id. -/
theorem SearchChildrenById_iff (h : Heap) (r : Ptr) (id : String) (n fuel : Nat)
    (ht : isTree h n r = true) (hfuel : n ≤ fuel) :
    ∃ res, SearchChildrenById fuel h r id = some res ∧
      (res.isSome = true ↔ ∃ q, Desc h r q ∧ idOf h q = some id) ∧
      (∀ q, res = some q → Desc h r q ∧ idOf h q = some id) := by
  obtain ⟨res, hres, h1, h2⟩ := search_spec h id n r ht fuel hfuel
  refine ⟨res, hres, ?_, h1⟩
  constructor
  · intro hs
    cases res with
    | none => simp at hs
    | some q => exact ⟨q, h1 q rfl⟩
  · rintro ⟨q, hd, hi⟩
    cases res with
    | none => exact absurd hi (h2 rfl q hd)
    | some q => rfl

/-- Witness for `SearchChildrenById_iff`: in the chain root → A → B the search for "B" from
the root returns B (pointer 2), and the search for "dummy" returns nil. -/
theorem SearchChildrenById_iff_witness :
    SearchChildrenById 3 chainHeap 0 "B" = some (some 2) ∧
    SearchChildrenById 3 chainHeap 0 "dummy" = some none ∧
    ∃ res, SearchChildrenById 3 chainHeap 0 "B" = some res ∧
      (res.isSome = true ↔ ∃ q, Desc chainHeap 0 q ∧ idOf chainHeap q = some "B") ∧
      (∀ q, res = some q → Desc chainHeap 0 q ∧ idOf chainHeap q = some "B") :=
  ⟨by decide, by decide, SearchChildrenById_iff chainHeap 0 "B" 3 3 (by decide) (by decide)⟩

/-- C10: for every node p (with non-nil children) and identity id, `p.GetChildById(id)`
returns a direct child of p whose `Id()` equals id when such a direct child exists and returns
nil otherwise; a node that is not a direct child of p (p itself, a deeper descendant) is
never returned. -/
theorem GetChildById_direct (h : Heap) (uio : Ptr) (id : String) (o : UIObject)
    (hp : h[uio]? = some o) (hv : NonNil h (o.children.map Prod.snd)) :
    ∃ res, GetChildById h uio id = some res ∧
      (∀ q, res = some q → q ∈ o.children.map Prod.snd ∧ idOf h q = some id) ∧
      (res = none ↔ ∀ q ∈ o.children.map Prod.snd, idOf h q ≠ some id) ∧
      (∀ q, q ∉ o.children.map Prod.snd → res ≠ some q) := by
  obtain ⟨res, hres, h1, h2⟩ := GetChildById_range_spec h id o.children hv
  refine ⟨res, by simp [GetChildById, hp, hres], h1, h2, ?_⟩
  intro q hq hr
  exact hq (h1 q hr).1

/-- Witness for `GetChildById_direct`: in the chain root → A → B the root's
`GetChildById("B")` is nil, B being a child of A only, and `GetChildById("A")` is A. -/
theorem GetChildById_direct_witness :
    GetChildById chainHeap 0 "B" = some none ∧ GetChildById chainHeap 0 "A" = some (some 1) ∧
    ∃ res, GetChildById chainHeap 0 "B" = some res ∧
      (∀ q, res = some q → q ∈ [1] ∧ idOf chainHeap q = some "B") ∧
      (res = none ↔ ∀ q ∈ [1], idOf chainHeap q ≠ some "B") ∧
      (∀ q, q ∉ [1] → res ≠ some q) :=
  ⟨by decide, by decide,
    GetChildById_direct chainHeap 0 "B" ⟨"", "root", "", [], "panel", [("A", 1)], [1]⟩
      (by decide) (by decide)⟩

/-- C11 fails in the code for a token with surrounding white space: on the test element (class
"strong") `AddCssClass("weak ")` leaves the class "strong weak" when called once and
"strong weak weak" when called twice, because the guard looks for the token as given while
the trimmed token is what gets appended; likewise on a node with empty class the token "a "
gives " a" after one call and "a a" after two. -/
theorem AddCssClass_padded_twice :
    (AddCssClass testHeap 0 "weak ").bind (fun h => classOf h 0) = some "strong weak" ∧
      ((AddCssClass testHeap 0 "weak ").bind (fun h => AddCssClass h 0 "weak ")).bind
        (fun h => classOf h 0) = some "strong weak weak" ∧
      Contains "strong weak" "weak " = false ∧
      (AddCssClass h0 0 "a ").bind (fun h => classOf h 0) = some " a" ∧
      ((AddCssClass h0 0 "a ").bind (fun h => AddCssClass h 0 "a ")).bind
        (fun h => classOf h 0) = some "a a" := by
  decide

/-- The deduplication of `AddCssClass` works for a token that has no leading or trailing
white space: for every node and every such token, `AddCssClass(token)` returns, after it the
class string contains the token, and a second `AddCssClass(token)` leaves the heap, hence the
class string, as the first call left it. -/
theorem AddCssClass_idempotent (h : Heap) (he : Ptr) (token : String) (o : UIObject)
    (hp : h[he]? = some o) (ht : TrimSpace token = token) :
    ∃ h1 c, AddCssClass h he token = some h1 ∧ classOf h1 he = some c ∧
      Contains c token = true ∧ AddCssClass h1 he token = some h1 := by
  by_cases hc : Contains o.«class» token = true
  · refine ⟨h, o.«class», by simp [AddCssClass, hp, hc], by simp [classOf, hp, UIObject.Class],
      hc, by simp [AddCssClass, hp, hc]⟩
  · have hnew : Contains (TrimSpace o.«class» ++ " " ++ token) token = true := by
      rw [Contains_iff]
      simp only [String.data_append]
      exact (List.suffix_append _ _).isInfix
    have hget : (h.set he { o with «class» := TrimSpace o.«class» ++ " " ++ token })[he]? =
        some { o with «class» := TrimSpace o.«class» ++ " " ++ token } := by
      simp [List.getElem?_set, lt_of_get hp]
    refine ⟨h.set he { o with «class» := TrimSpace o.«class» ++ " " ++ token },
      TrimSpace o.«class» ++ " " ++ token, ?_, ?_, hnew, ?_⟩
    · simp [AddCssClass, hp, hc, ht]
    · simp [classOf, hget, UIObject.Class]
    · simp [AddCssClass, hget, hnew]

/-- Instance of `AddCssClass_idempotent`: the test element (class "strong") and the token
"weak". -/
theorem AddCssClass_idempotent_witness :
    ∃ h1 c, AddCssClass testHeap 0 "weak" = some h1 ∧ classOf h1 0 = some c ∧
      Contains c "weak" = true ∧ AddCssClass h1 0 "weak" = some h1 :=
  AddCssClass_idempotent testHeap 0 "weak" ⟨"text", "test1", "strong", [], "test", [], []⟩
    (by decide) (by decide)

/-- C12: for every node, every non-empty token s without white space that is a substring of
`Class()` and every token t, `AddCssClass(t)` returns and afterwards the class string
contains both s and the white-space-trimmed t as substrings. -/
theorem AddCssClass_contains (h : Heap) (he : Ptr) (t s : String) (o : UIObject)
    (hp : h[he]? = some o) (hs1 : s.data ≠ []) (hs2 : ∀ x ∈ s.data, isSpace x = false)
    (hs3 : Contains o.Class s = true) :
    ∃ h1 c, AddCssClass h he t = some h1 ∧ classOf h1 he = some c ∧
      Contains c s = true ∧ Contains c (TrimSpace t) = true := by
  by_cases hc : Contains o.«class» t = true
  · refine ⟨h, o.«class», by simp [AddCssClass, hp, hc], by simp [classOf, hp, UIObject.Class],
      hs3, ?_⟩
    rw [Contains_iff]
    exact (TrimSpace_sub t).trans ((Contains_iff _ _).1 hc)
  · have hget : (h.set he { o with «class» := TrimSpace o.«class» ++ " " ++ TrimSpace t })[he]? =
        some { o with «class» := TrimSpace o.«class» ++ " " ++ TrimSpace t } := by
      simp [List.getElem?_set, lt_of_get hp]
    refine ⟨h.set he { o with «class» := TrimSpace o.«class» ++ " " ++ TrimSpace t },
      TrimSpace o.«class» ++ " " ++ TrimSpace t, ?_, ?_, ?_, ?_⟩
    · simp [AddCssClass, hp, hc]
    · simp [classOf, hget, UIObject.Class]
    · rw [Contains_iff]
      simp only [String.data_append, List.append_assoc]
      have := sub_TrimSpace s.data o.«class» hs1 hs2 ((Contains_iff _ _).1 hs3)
      exact this.trans (List.prefix_append _ _).isInfix
    · rw [Contains_iff]
      simp only [String.data_append]
      exact (List.suffix_append _ _).isInfix

/-- Witness for `AddCssClass_contains`: class "strong" and `AddCssClass("weak")`. -/
theorem AddCssClass_contains_witness :
    ∃ h1 c, AddCssClass testHeap 0 "weak" = some h1 ∧ classOf h1 0 = some c ∧
      Contains c "strong" = true ∧ Contains c (TrimSpace "weak") = true :=
  AddCssClass_contains testHeap 0 "weak" "strong"
    ⟨"text", "test1", "strong", [], "test", [], []⟩ (by decide) (by decide) (by decide)
    (by decide)

/-- C13, as stated, fails: on the class string "aabb", `RemoveCssClass("ab")` deletes the
occurrence in the middle and leaves "ab", which still contains the token. -/
theorem C13_counterexample :
    (RemoveCssClass aabbHeap 0 "ab").bind (fun h => classOf h 0) = some "ab" ∧
      Contains "ab" (TrimSpace "ab") = true := by
  decide

/-- C13 (amended): for every class string and every token whose trimmed form is non-empty,
contains no white space and occurs in the class string only at its start or directly after a
white-space character, `RemoveCssClass(token)` returns and afterwards `Class()` no longer
contains the trimmed token as a substring. -/
theorem RemoveCssClass_no_occurrence (h : Heap) (he : Ptr) (token : String) (o : UIObject)
    (hp : h[he]? = some o) (hne : (TrimSpace token).data ≠ [])
    (hfree : ∀ x ∈ (TrimSpace token).data, isSpace x = false)
    (hdel : leftDelimited (TrimSpace token).data true o.Class.data = true) :
    ∃ h1 c, RemoveCssClass h he token = some h1 ∧ classOf h1 he = some c ∧
      Contains c (TrimSpace token) = false := by
  refine ⟨h.set he { o with «class» := TrimSpace (Replace o.«class» (TrimSpace token) "") },
    TrimSpace (Replace o.«class» (TrimSpace token) ""), by simp [RemoveCssClass, hp], ?_,
    Replace_no_occurrence o.«class» (TrimSpace token) hne hfree hdel⟩
  simp [classOf, List.getElem?_set, lt_of_get hp, UIObject.Class]

/-- Witness for `RemoveCssClass_no_occurrence`: class "strong weak" and
`RemoveCssClass("weak")`. -/
theorem RemoveCssClass_no_occurrence_witness :
    ∃ h1 c, RemoveCssClass weakHeap 0 "weak" = some h1 ∧ classOf h1 0 = some c ∧
      Contains c (TrimSpace "weak") = false :=
  RemoveCssClass_no_occurrence weakHeap 0 "weak"
    ⟨"text", "test1", "strong weak", [], "test", [], []⟩ (by decide) (by decide) (by decide)
    (by decide)

/-- C14: for every class string and every token whose trimmed form does not occur in it as a
substring, `RemoveCssClass(token)` returns and leaves `Class()` equal to the previous class
string with its leading and trailing white space trimmed. -/
theorem RemoveCssClass_absent (h : Heap) (he : Ptr) (token : String) (o : UIObject)
    (hp : h[he]? = some o) (habs : Contains o.Class (TrimSpace token) = false) :
    ∃ h1, RemoveCssClass h he token = some h1 ∧ classOf h1 he = some (TrimSpace o.Class) := by
  have hni : ¬ (TrimSpace token).data <:+: o.«class».data := by
    rw [← Contains_iff]
    simpa [UIObject.Class] using habs
  have hne : (TrimSpace token).data ≠ [] := by
    intro hnil
    apply hni
    rw [hnil]
    exact List.nil_infix
  have hrep : Replace o.«class» (TrimSpace token) "" = o.«class» := by
    apply String.ext
    simp only [Replace, if_neg hne]
    exact replaceL_absent _ _ _ hni
  refine ⟨h.set he { o with «class» := TrimSpace (Replace o.«class» (TrimSpace token) "") },
    by simp [RemoveCssClass, hp], ?_⟩
  simp [classOf, List.getElem?_set, lt_of_get hp, UIObject.Class, hrep]

/-- Witness for `RemoveCssClass_absent`: removing "other_class" from "strong" leaves
"strong". -/
theorem RemoveCssClass_absent_witness :
    ∃ h1, RemoveCssClass testHeap 0 "other_class" = some h1 ∧
      classOf h1 0 = some (TrimSpace "strong") :=
  RemoveCssClass_absent testHeap 0 "other_class"
    ⟨"text", "test1", "strong", [], "test", [], []⟩ (by decide) (by decide)

/-- C15: for every node and every key that is not in its attribute map, `GetAttribute(key)`
returns normally and its result is the empty string. -/
theorem GetAttribute_absent (h : Heap) (he : Ptr) (key : String) (o : UIObject)
    (hp : h[he]? = some o) (hk : key ∉ mapKeys o.attrs) : GetAttribute h he key = some "" := by
  simp [GetAttribute, hp, mapGet_none o.attrs key hk]

/-- Witness for `GetAttribute_absent`: the test element with the attribute "href" and the
key "bad_attribute_name". -/
theorem GetAttribute_absent_witness : GetAttribute hrefHeap 0 "bad_attribute_name" = some "" :=
  GetAttribute_absent hrefHeap 0 "bad_attribute_name"
    ⟨"text", "test1", "strong", [("href", "value1")], "test", [], []⟩ (by decide) (by decide)

/-- C16: for every node, key k and value v, `AddAttribute(k, v)` returns and afterwards
`GetAttribute(k)` is v, whether or not k had a value before, and `GetAttribute(k2)` is
unchanged for every other key k2. -/
theorem AddAttribute_GetAttribute (h : Heap) (he : Ptr) (k v : String) (o : UIObject)
    (hp : h[he]? = some o) :
    ∃ h1, AddAttribute h he k v = some h1 ∧ GetAttribute h1 he k = some v ∧
      ∀ k2, k2 ≠ k → GetAttribute h1 he k2 = GetAttribute h he k2 := by
  refine ⟨h.set he { o with attrs := mapSet o.attrs k v }, by simp [AddAttribute, hp], ?_, ?_⟩
  · simp [GetAttribute, List.getElem?_set, lt_of_get hp, mapGet_mapSet]
  · intro k2 hne
    simp [GetAttribute, List.getElem?_set, lt_of_get hp, hp, mapGet_mapSet_ne _ _ _ _ hne]

/-- Witness for `AddAttribute_GetAttribute`: the attribute "href" of the test element is
overwritten with "value2". -/
theorem AddAttribute_GetAttribute_witness :
    ∃ h1, AddAttribute hrefHeap 0 "href" "value2" = some h1 ∧
      GetAttribute h1 0 "href" = some "value2" ∧
      ∀ k2, k2 ≠ "href" → GetAttribute h1 0 k2 = GetAttribute hrefHeap 0 k2 :=
  AddAttribute_GetAttribute hrefHeap 0 "href" "value2"
    ⟨"text", "test1", "strong", [("href", "value1")], "test", [], []⟩ (by decide)

/-- C17: for every node and key k, `RemoveAttribute(k)` returns and afterwards
`GetAttribute(k)` is the empty string and every other key keeps its value; when k was not
present the attribute map, and the whole heap, is unchanged. -/
theorem RemoveAttribute_GetAttribute (h : Heap) (he : Ptr) (k : String) (o : UIObject)
    (hp : h[he]? = some o) :
    ∃ h1, RemoveAttribute h he k = some h1 ∧ GetAttribute h1 he k = some "" ∧
      (∀ k2, k2 ≠ k → GetAttribute h1 he k2 = GetAttribute h he k2) ∧
      (k ∉ mapKeys o.attrs → attrsOf h1 he = some o.attrs ∧ h1 = h) := by
  refine ⟨h.set he { o with attrs := mapDelete o.attrs k }, by simp [RemoveAttribute, hp],
    ?_, ?_, ?_⟩
  · simp [GetAttribute, List.getElem?_set, lt_of_get hp, mapGet_mapDelete]
  · intro k2 hne
    simp [GetAttribute, List.getElem?_set, lt_of_get hp, hp, mapGet_mapDelete_ne _ _ _ hne]
  · intro hk
    rw [mapDelete_absent _ _ hk]
    exact ⟨by simp [attrsOf, List.getElem?_set, lt_of_get hp], set_self_eq h he o hp⟩

/-- Witness for `RemoveAttribute_GetAttribute`: the attribute "href" is removed from the
test element. -/
theorem RemoveAttribute_GetAttribute_witness :
    ∃ h1, RemoveAttribute hrefHeap 0 "href" = some h1 ∧ GetAttribute h1 0 "href" = some "" ∧
      (∀ k2, k2 ≠ "href" → GetAttribute h1 0 k2 = GetAttribute hrefHeap 0 k2) ∧
      ("href" ∉ mapKeys [("href", "value1")] →
        attrsOf h1 0 = some [("href", "value1")] ∧ h1 = hrefHeap) :=
  RemoveAttribute_GetAttribute hrefHeap 0 "href"
    ⟨"text", "test1", "strong", [("href", "value1")], "test", [], []⟩ (by decide)

/-- C18: for a node whose attribute map holds the single entry "dir" → "ltr", `Attributes()`
is the string that starts with a space, followed by dir="ltr"; for every single entry k → v
the rendering is a space followed by k="v", never k="v" itself; for the empty map it is
the empty string. -/
theorem Attributes_leading_space :
    Attributes dirHeap 0 = some (" dir=" ++ quote ++ "ltr" ++ quote) ∧
    (∀ k v : String, AttributeMap_String [(k, v)] = " " ++ (k ++ "=" ++ quote ++ v ++ quote) ∧
      AttributeMap_String [(k, v)] ≠ k ++ "=" ++ quote ++ v ++ quote) ∧
    AttributeMap_String [] = "" := by
  refine ⟨by decide, ?_, by decide⟩
  intro k v
  have h1 : AttributeMap_String [(k, v)] = " " ++ (k ++ "=" ++ quote ++ v ++ quote) := by
    simp only [AttributeMap_String, List.foldl_cons, List.foldl_nil]
    apply String.ext
    simp [String.data_append]
  refine ⟨h1, ?_⟩
  rw [h1]
  intro heq
  have := congrArg String.length heq
  simp only [String.length_append] at this
  have h2 : " ".length = 1 := by decide
  omega

/-- C19: for the document root → child → grandchild, `NewElementFromJSON` returns the root
(pointer 0) and allocates two nodes only: the built child (pointer 1) has `ChildCount()` 0
and the root's `SearchChildrenById("grandchild")` is nil, while the child itself is found.
The loop over `eBuf.Children` never looks at the children of a child document. -/
theorem NewElementFromJSON_one_level :
    (NewElementFromJSON (fun _ => some nestedDoc) [] "root-child-grandchild" []).map
        (fun r => r.2) = some (some 0) ∧
    (NewElementFromJSON (fun _ => some nestedDoc) [] "root-child-grandchild" []).map
        (fun r => r.1.length) = some 2 ∧
    (NewElementFromJSON (fun _ => some nestedDoc) [] "root-child-grandchild" []).bind
        (fun r => ChildCount r.1 1) = some 0 ∧
    (NewElementFromJSON (fun _ => some nestedDoc) [] "root-child-grandchild" []).bind
        (fun r => SearchChildrenById 3 r.1 0 "grandchild") = some none ∧
    (NewElementFromJSON (fun _ => some nestedDoc) [] "root-child-grandchild" []).bind
        (fun r => SearchChildrenById 3 r.1 0 "child") = some (some 1) := by
  decide

/-- C20: for every element document whose child documents carry distinct non-empty
identities, `NewElementFromJSON` returns a root whose `ChildCount()` is the number of child
documents, whose `ChildrenByOrder()` has the child documents' ids as identities, in document
order, and for which `GetChildById(id)` of each child document's id is a node whose `Text()`
is that document's text. -/
theorem NewElementFromJSON_children (unmarshal : String → Option elementStruct) (h : Heap)
    (s : String) (rs : List Nat) (eBuf : elementStruct) (hu : unmarshal s = some eBuf)
    (hne : ∀ v ∈ eBuf.Children, v.Id.length ≠ 0)
    (hnd : (eBuf.Children.map elementStruct.Id).Nodup) :
    ∃ h' p l, NewElementFromJSON unmarshal h s rs = some (h', some p) ∧
      ChildCount h' p = some eBuf.Children.length ∧
      ChildrenByOrder h' p = some l ∧
      l.map (idOf h') = eBuf.Children.map (fun v => some v.Id) ∧
      ∀ v ∈ eBuf.Children, ∃ q n, GetChildById h' p v.Id = some (some q) ∧
        h'[q]? = some n ∧ n.Text = v.Text := by
  have hroot : AddAttributeMap (NewElement h eBuf.Etype eBuf.Id eBuf.ClassName eBuf.Text).1
      (NewElement h eBuf.Etype eBuf.Id eBuf.ClassName eBuf.Text).2 eBuf.Attributes =
      some (h ++ [docNode eBuf]) := by
    rw [AddAttributeMap_eq _ _ _ _ (NewElement_get_new h eBuf.Etype eBuf.Id eBuf.ClassName
      eBuf.Text)]
    simp only [NewElement]
    rw [List.set_append_right _ _ (le_refl _)]
    simp [docNode]
  have hp : (h ++ [docNode eBuf])[h.length]? = some (docNode eBuf) := by simp
  obtain ⟨h', o', ptrs, hrun, hget, hch, hco, hfa, _⟩ :=
    json_children_spec eBuf.Children (h ++ [docNode eBuf]) h.length rs (docNode eBuf) hp hne hnd
      (fun v _ hmem => by simp [docNode, mapKeys] at hmem)
  have hlen := hfa.length_eq
  have hch2 : o'.children = List.zip (eBuf.Children.map elementStruct.Id) ptrs := by
    rw [hch]
    simp [docNode]
  have hco2 : o'.childOrder = ptrs := by
    rw [hco]
    simp [docNode]
  have hvals : o'.children.map Prod.snd = ptrs := by
    rw [hch2]
    exact List.map_snd_zip _ _ (by simp [hlen])
  refine ⟨h', h.length, ptrs, ?_, ?_, ?_, forall2_ids h' _ _ hfa, ?_⟩
  · simp only [NewElementFromJSON, hu, Option.bind_eq_bind, hroot, Option.some_bind]
    simp only [NewElement] at hrun ⊢
    rw [hrun]
    rfl
  · simp [ChildCount, hget, hch2, hlen]
  · simp [ChildrenByOrder, hget, hco2]
  · intro v hv
    have hnn : NonNil h' (o'.children.map Prod.snd) := by
      intro q hq
      rw [hvals] at hq
      obtain ⟨_, _, n, hn, _⟩ := forall2_mem_right hfa q hq
      exact lt_of_get hn
    obtain ⟨res, hres, h1, h2⟩ := GetChildById_range_spec h' v.Id o'.children hnn
    cases res with
    | none =>
      exfalso
      obtain ⟨q, hq, n, hn, hid, _⟩ := forall2_mem_left hfa v hv
      exact (h2.1 rfl) q (by rw [hvals]; exact hq) (by simp [idOf, hn, UIObject.Id, hid])
    | some q =>
      obtain ⟨hq, hidq⟩ := h1 q rfl
      rw [hvals] at hq
      obtain ⟨w, hw, n, hn, hid, htext⟩ := forall2_mem_right hfa q hq
      have hwv : w.Id = v.Id := by
        simpa [idOf, hn, UIObject.Id, hid] using hidq
      have hweq : w = v := List.inj_on_of_nodup_map hnd hw hv hwv
      refine ⟨q, n, by simp [GetChildById, hget, hres], hn, ?_⟩
      rw [← hweq]
      exact htext

/-- Witness for `NewElementFromJSON_children`: the spec's document, "p" with the children
"c1" (text "A") and "c2" (text "B"); the built root has two children, in the order "c1",
"c2", and the text of "c2" is "B". -/
theorem NewElementFromJSON_children_witness :
    ((NewElementFromJSON (fun _ => some specDoc) [] "p-c1-c2" []).bind
        (fun r => ChildCount r.1 0) = some 2 ∧
      (NewElementFromJSON (fun _ => some specDoc) [] "p-c1-c2" []).bind
        (fun r => (ChildrenByOrder r.1 0).map (fun l => l.map (idOf r.1))) =
          some [some "c1", some "c2"] ∧
      (NewElementFromJSON (fun _ => some specDoc) [] "p-c1-c2" []).bind
        (fun r => (GetChildById r.1 0 "c2").map
          (fun q => q.bind (fun x => (r.1[x]?).map UIObject.Text))) = some (some "B")) ∧
    ∃ h' p l, NewElementFromJSON (fun _ => some specDoc) [] "p-c1-c2" [] = some (h', some p) ∧
      ChildCount h' p = some specDoc.Children.length ∧
      ChildrenByOrder h' p = some l ∧
      l.map (idOf h') = specDoc.Children.map (fun v => some v.Id) ∧
      ∀ v ∈ specDoc.Children, ∃ q n, GetChildById h' p v.Id = some (some q) ∧
        h'[q]? = some n ∧ n.Text = v.Text :=
  ⟨by decide,
    NewElementFromJSON_children (fun _ => some specDoc) [] "p-c1-c2" [] specDoc rfl
      (by decide) (by decide)⟩

/-- C21: for every element document (decoded by `json.Unmarshal`, its attributes a map with
distinct keys), `NewElementFromJSON` returns a root whose `Id()`, `Text()`, `ContentType()`
and `Class()` are the document's id, text, type and class fields and whose `GetAttribute(k)`
is the document's `attributes[k]` for every key k (the empty string when k is absent); a
document without children gives a root without children. -/
theorem NewElementFromJSON_root (unmarshal : String → Option elementStruct) (h : Heap)
    (s : String) (rs : List Nat) (eBuf : elementStruct) (hu : unmarshal s = some eBuf)
    (hk : (mapKeys eBuf.Attributes).Nodup) :
    ∃ h' p n, NewElementFromJSON unmarshal h s rs = some (h', some p) ∧ h'[p]? = some n ∧
      n.Id = eBuf.Id ∧ n.Text = eBuf.Text ∧ ContentType h' p = some eBuf.Etype ∧
      n.Class = eBuf.ClassName ∧
      (∀ k, GetAttribute h' p k = some ((mapGet eBuf.Attributes k).getD "")) ∧
      (eBuf.Children = [] → ChildCount h' p = some 0 ∧ ChildrenByOrder h' p = some []) := by
  obtain ⟨h', n, hrun, hget, e1, e2, e3, e4, e5, e6⟩ :=
    NewElementFromJSON_some unmarshal h s rs eBuf hu
  refine ⟨h', h.length, n, hrun, hget, e2, e1, by simp [ContentType, hget, e4], e3, ?_, ?_⟩
  · intro k
    have hfold := fold_mapSet_get eBuf.Attributes [] k hk
    simp only [GetAttribute, hget, e5, hfold]
    cases mapGet eBuf.Attributes k with
    | none => simp [mapGet]
    | some x => simp
  · intro hnil
    obtain ⟨c1, c2⟩ := e6 hnil
    exact ⟨by simp [ChildCount, hget, c1], by simp [ChildrenByOrder, hget, c2]⟩

/-- Witness for `NewElementFromJSON_root`: the empty document gives a node whose identity,
text, type, class and attributes are empty and which has no children. -/
theorem NewElementFromJSON_root_witness :
    (NewElementFromJSON (fun _ => some emptyDoc) [] "empty document" []).map (fun r => r.1) =
      some [⟨"", "", "", [], "", [], []⟩] ∧
    ∃ h' p n, NewElementFromJSON (fun _ => some emptyDoc) [] "empty document" [] =
        some (h', some p) ∧ h'[p]? = some n ∧
      n.Id = emptyDoc.Id ∧ n.Text = emptyDoc.Text ∧ ContentType h' p = some emptyDoc.Etype ∧
      n.Class = emptyDoc.ClassName ∧
      (∀ k, GetAttribute h' p k = some ((mapGet emptyDoc.Attributes k).getD "")) ∧
      (emptyDoc.Children = [] → ChildCount h' p = some 0 ∧ ChildrenByOrder h' p = some []) :=
  ⟨by decide,
    NewElementFromJSON_root (fun _ => some emptyDoc) [] "empty document" [] emptyDoc rfl
      (by decide)⟩

/-- C22: `NewElementFromJSON` always returns; it returns the pair of a nil node and an error
exactly when `json.Unmarshal` reports an error for the input string, and then nothing has been
built (the heap is unchanged); otherwise it returns a node that is allocated. -/
theorem NewElementFromJSON_error (unmarshal : String → Option elementStruct) (h : Heap)
    (s : String) (rs : List Nat) :
    ∃ h' p, NewElementFromJSON unmarshal h s rs = some (h', p) ∧
      (p = none ↔ unmarshal s = none) ∧ (p = none → h' = h) ∧
      (∀ q, p = some q → ∃ n, h'[q]? = some n) := by
  cases hu : unmarshal s with
  | none =>
    refine ⟨h, none, by simp [NewElementFromJSON, hu], by simp, fun _ => rfl, ?_⟩
    intro q hq
    cases hq
  | some eBuf =>
    obtain ⟨h', n, hrun, hget, _⟩ := NewElementFromJSON_some unmarshal h s rs eBuf hu
    refine ⟨h', some h.length, hrun, by simp, (fun hn => by cases hn), ?_⟩
    intro q hq
    cases hq
    exact ⟨n, hget⟩

/-- C23: for every node (with non-nil children) and type string t, `GetContentByType(t)`
returns the sequence `ChildrenByOrder()` filtered to the children whose `ContentType()`
equals t, in the same relative order; a node that is not among `ChildrenByOrder()` (the node
itself, a deeper descendant) is never in the result. -/
theorem GetContentByType_filter (h : Heap) (he : Ptr) (t : String) (o : UIObject)
    (hp : h[he]? = some o) (hv : NonNil h o.childOrder) :
    ∃ l r, ChildrenByOrder h he = some l ∧ GetContentByType h he t = some r ∧
      r = l.filter (fun c => decide (ContentType h c = some t)) ∧
      ∀ q, q ∉ l → q ∉ r := by
  refine ⟨o.childOrder, o.childOrder.filter (fun c => decide (ContentType h c = some t)),
    by simp [ChildrenByOrder, hp], ?_, rfl, ?_⟩
  · simp only [GetContentByType, hp, Option.bind_eq_bind, Option.some_bind]
    rw [GetContentByType_loop_eq h t o.childOrder [] hv]
    simp
  · intro q hq hr
    exact hq (List.mem_filter.1 hr).1

/-- Witness for `GetContentByType_filter`: the node "p" (type "panel") with the children
"c1", "c2" of type "item"; the type "item" gives both, the type "panel" gives nothing. -/
theorem GetContentByType_filter_witness :
    GetContentByType twoKids 0 "item" = some [1, 2] ∧
    GetContentByType twoKids 0 "panel" = some [] ∧
    ∃ l r, ChildrenByOrder twoKids 0 = some l ∧ GetContentByType twoKids 0 "item" = some r ∧
      r = l.filter (fun c => decide (ContentType twoKids c = some "item")) ∧
      ∀ q, q ∉ l → q ∉ r :=
  ⟨by decide, by decide,
    GetContentByType_filter twoKids 0 "item"
      ⟨"", "p", "", [], "panel", [("c1", 1), ("c2", 2)], [1, 2]⟩ (by decide) (by decide)⟩

/-- C24: for every parent and every child c, `AddChild(c)` returns; when c had an empty
`Id()` and content type T, its `Id()` afterwards is non-empty and is T followed by "#" and
the decimal form of a number n with 0 <= n < 100, whatever the random source yields; when
c had a non-empty `Id()` it keeps it. -/
theorem AddChild_generated_id (h : Heap) (he ui : Ptr) (r : Nat) (o u : UIObject)
    (hp : h[he]? = some o) (hc : h[ui]? = some u) :
    ∃ h' i, AddChild h he ui r = some h' ∧ idOf h' ui = some i ∧ i.length ≠ 0 ∧
      (u.Id.length = 0 →
        ∃ n, n < 100 ∧ ContentType h ui = some u.contentType ∧
          i = u.contentType ++ "#" ++ toString n) ∧
      (u.Id.length ≠ 0 → i = u.Id) := by
  obtain ⟨h', _, hadd, _, _, _⟩ := AddChild_get_self h he ui r o u hp hc
  have hid := AddChild_get_child h he ui r o u hp hc h' hadd
  refine ⟨h', newId u r, hadd, hid, newId_length u r, ?_, ?_⟩
  · intro hz
    exact ⟨r % 100, Nat.mod_lt _ (by decide), by simp [ContentType, hc], by simp [newId, hz]⟩
  · intro hz
    simp [newId, hz]

/-- Witness for `AddChild_generated_id`: a node of type "item" without identity is added
while the random source yields 157; its identity becomes "item#57". -/
theorem AddChild_generated_id_witness :
    (AddChild noIdHeap 0 1 157).bind (fun h => idOf h 1) = some "item#57" ∧
    ∃ h' i, AddChild noIdHeap 0 1 157 = some h' ∧ idOf h' 1 = some i ∧ i.length ≠ 0 ∧
      (("" : String).length = 0 →
        ∃ n, n < 100 ∧ ContentType noIdHeap 1 = some "item" ∧
          i = "item" ++ "#" ++ toString n) ∧
      (("" : String).length ≠ 0 → i = "") :=
  ⟨by decide,
    AddChild_generated_id noIdHeap 0 1 157 ⟨"", "p", "", [], "panel", [], []⟩
      ⟨"", "", "", [], "item", [], []⟩ (by decide) (by decide)⟩

/-- C25, as stated, fails: on a node with empty class `AddCssClass("a")` leaves the class
" a", with a leading space, not "a"; and on a node whose class is " x " the call
`AddCssClass("x")` finds the token and leaves the class " x " as it is. -/
theorem C25_counterexample :
    (AddCssClass h0 0 "a").bind (fun h => classOf h 0) = some " a" ∧
      TrimSpace " a" ≠ " a" ∧
      (AddCssClass paddedHeap 0 "x").bind (fun h => classOf h 0) = some " x " ∧
      TrimSpace " x " ≠ " x " := by
  decide

/-- C25 (amended): for every node and every token, `AddCssClass(token)` returns; when the
token is already a substring of the class string, `Class()` is left as it was; when it is not
and the class string and the token are both non-empty after white-space trimming, `Class()`
becomes the trimmed class, a single space and the trimmed token, and this string has no
leading and no trailing white space. -/
theorem AddCssClass_trimmed (h : Heap) (he : Ptr) (token : String) (o : UIObject)
    (hp : h[he]? = some o) :
    ∃ h1 c, AddCssClass h he token = some h1 ∧ classOf h1 he = some c ∧
      (Contains o.Class token = true → c = o.Class) ∧
      (Contains o.Class token = false → (TrimSpace o.Class).data ≠ [] →
        (TrimSpace token).data ≠ [] →
          c = TrimSpace o.Class ++ " " ++ TrimSpace token ∧ TrimSpace c = c) := by
  by_cases hc : Contains o.«class» token = true
  · refine ⟨h, o.«class», by simp [AddCssClass, hp, hc], by simp [classOf, hp, UIObject.Class],
      fun _ => rfl, ?_⟩
    intro hf
    rw [UIObject.Class, hc] at hf
    cases hf
  · have hget : (h.set he { o with «class» := TrimSpace o.«class» ++ " " ++ TrimSpace token })[he]? =
        some { o with «class» := TrimSpace o.«class» ++ " " ++ TrimSpace token } := by
      simp [List.getElem?_set, lt_of_get hp]
    refine ⟨h.set he { o with «class» := TrimSpace o.«class» ++ " " ++ TrimSpace token },
      TrimSpace o.«class» ++ " " ++ TrimSpace token, ?_, ?_, ?_, ?_⟩
    · simp [AddCssClass, hp, hc]
    · simp [classOf, hget, UIObject.Class]
    · intro ht
      exact absurd ht hc
    · intro _ h1 h2
      refine ⟨rfl, ?_⟩
      apply String.ext
      have hsp : " ".data = [Char.ofNat 32] := rfl
      simp only [TrimSpace, String.data_append, hsp]
      exact trimL_join o.«class».data token.data (Char.ofNat 32) h1 h2

/-- Witness for `AddCssClass_trimmed`: class "strong" and the token "weak" give
"strong weak". -/
theorem AddCssClass_trimmed_witness :
    (AddCssClass testHeap 0 "weak").bind (fun h => classOf h 0) = some "strong weak" ∧
    ∃ h1 c, AddCssClass testHeap 0 "weak" = some h1 ∧ classOf h1 0 = some c ∧
      (Contains "strong" "weak" = true → c = "strong") ∧
      (Contains "strong" "weak" = false → (TrimSpace "strong").data ≠ [] →
        (TrimSpace "weak").data ≠ [] →
          c = TrimSpace "strong" ++ " " ++ TrimSpace "weak" ∧ TrimSpace c = c) :=
  ⟨by decide,
    AddCssClass_trimmed testHeap 0 "weak" ⟨"text", "test1", "strong", [], "test", [], []⟩
      (by decide)⟩

/-- C26: for every node n and identity id with `n.Id()` equal to id, `n.SearchChildrenById(id)`
returns n itself, whatever its descendants are (self matches before descending); one level
of recursion suffices. -/
theorem SearchChildrenById_self (h : Heap) (n : Ptr) (id : String) (fuel : Nat)
    (o : UIObject) (hp : h[n]? = some o) (hid : o.Id = id) :
    SearchChildrenById (fuel + 1) h n id = some (some n) := by
  simp [SearchChildrenById, hp, hid]

/-- Witness for `SearchChildrenById_self`: the node "a" whose child also carries the
identity "a"; the search for "a" returns the node itself (pointer 0), not the child. -/
theorem SearchChildrenById_self_witness :
    idOf sameIdHeap 1 = some "a" ∧ SearchChildrenById (0 + 1) sameIdHeap 0 "a" = some (some 0) :=
  ⟨by decide,
    SearchChildrenById_self sameIdHeap 0 "a" 0 ⟨"", "a", "", [], "panel", [("a", 1)], [1]⟩
      (by decide) (by decide)⟩

/-- C27: for every node and every pair of identities, whenever `SetChildOrder(thisId,
beforeId)` returns normally the heap is what it was before the call, and with it the node's
`ChildrenByOrder()` sequence and children lookup. -/
theorem SetChildOrder_returns_unchanged (h : Heap) (he : Ptr) (thisId beforeId : String)
    (h' : Heap) (hres : SetChildOrder h he thisId beforeId = some h') :
    h' = h ∧ ChildrenByOrder h' he = ChildrenByOrder h he ∧
      (h'[he]?).map (fun n => n.children) = (h[he]?).map (fun n => n.children) := by
  have := SetChildOrder_some h he thisId beforeId h' hres
  subst this
  exact ⟨rfl, rfl, rfl⟩

/-- Witness for `SetChildOrder_returns_unchanged`: children "c1", "c2" and the call
`SetChildOrder("zz", "c1")`, which returns. -/
theorem SetChildOrder_returns_unchanged_witness :
    SetChildOrder twoKids 0 "zz" "c1" = some twoKids ∧
    (twoKids = twoKids ∧ ChildrenByOrder twoKids 0 = ChildrenByOrder twoKids 0 ∧
      (twoKids[0]?).map (fun n => n.children) = (twoKids[0]?).map (fun n => n.children)) :=
  ⟨by decide, SetChildOrder_returns_unchanged twoKids 0 "zz" "c1" twoKids (by decide)⟩

/-- C28: in every node built from `NewElement` or `NewElementFromJSON` by `AddChild` and
`AddChildren`, each key of the children lookup equals the `Id()` of the child stored under
it, and `GetChildById(id)` returns the same result as the keyed lookup `children[id]` for
every id, in whatever order the lookup is scanned. -/
theorem Built_GetChildById (h : Heap) (hb : Built h) (p : Ptr) (o : UIObject)
    (hp : h[p]? = some o) (id : String) :
    (∀ e ∈ o.children, idOf h e.2 = some e.1) ∧
    GetChildById h p id = some (mapGet o.children id) ∧
    ∀ it, it.Perm o.children → GetChildById.range h id it = some (mapGet o.children id) := by
  obtain ⟨a, b, _⟩ := Built_BInv h hb p o hp
  have hall : ∀ e ∈ o.children, idOf h e.2 = some e.1 := fun e he => (b e he).1
  refine ⟨hall, ?_, ?_⟩
  · simp only [GetChildById, hp, Option.bind_eq_bind, Option.some_bind]
    exact range_eq_mapGet h id o.children hall
  · intro it hperm
    rw [range_eq_mapGet h id it (fun e he => hall e (hperm.mem_iff.1 he)),
      mapGet_perm it o.children id hperm a]

/-- Witness for `Built_GetChildById`: the node "p" to which two nodes with identity "a" were
added; the lookup holds the second one (pointer 2) under "a", and that is what
`GetChildById("a")` returns. -/
theorem Built_GetChildById_witness :
    (∀ e ∈ [("a", 2)], idOf dupTwice e.2 = some e.1) ∧
    GetChildById dupTwice 0 "a" = some (mapGet [("a", 2)] "a") ∧
    ∀ it, it.Perm [("a", 2)] → GetChildById.range dupTwice "a" it = some (mapGet [("a", 2)] "a") :=
  Built_GetChildById dupTwice
    (Built.addChild dupHeap 0 2 0 dupTwice
      (Built.addChild _ 0 1 0 dupHeap
        (Built.newElement _ "item" "a" "" "second"
          (Built.newElement _ "item" "a" "" "first"
            (Built.newElement [] "panel" "p" "" "" Built.empty)))
        (by decide))
      (by decide))
    0 ⟨"", "p", "", [], "panel", [("a", 2)], [1, 2]⟩ (by decide) "a"

/-- C29: in every node built from `NewElement` or `NewElementFromJSON` by `AddChild` and
`AddChildren` (identities may repeat), the identities occurring in `ChildrenByOrder()` are
exactly the keys of the children lookup, `ChildCount()` is at most the length of
`ChildrenByOrder()`, and the two are equal when the identities of `ChildrenByOrder()` are
pairwise distinct. -/
theorem Built_order_ids (h : Heap) (hb : Built h) (p : Ptr) (o : UIObject)
    (hp : h[p]? = some o) :
    ∃ l n, ChildrenByOrder h p = some l ∧ ChildCount h p = some n ∧
      (∀ x, x ∈ l.map (idOf h) ↔ x ∈ (mapKeys o.children).map some) ∧
      n ≤ l.length ∧ ((l.map (idOf h)).Nodup → n = l.length) := by
  obtain ⟨a, b, c⟩ := Built_BInv h hb p o hp
  have hsub1 : ∀ x, x ∈ o.childOrder.map (idOf h) → x ∈ (mapKeys o.children).map some := by
    intro x hx
    obtain ⟨q, hq, hqx⟩ := List.mem_map.1 hx
    obtain ⟨k, hk, hidk⟩ := c q hq
    rw [← hqx, hidk]
    exact List.mem_map.2 ⟨k, hk, rfl⟩
  have hsub2 : ∀ x, x ∈ (mapKeys o.children).map some → x ∈ o.childOrder.map (idOf h) := by
    intro x hx
    obtain ⟨k, hk, hkx⟩ := List.mem_map.1 hx
    obtain ⟨e, he1, he2⟩ := List.mem_map.1 hk
    obtain ⟨b1, _, b3⟩ := b e he1
    rw [← hkx, ← he2, ← b1]
    exact List.mem_map.2 ⟨e.2, b3, rfl⟩
  have hnd : ((mapKeys o.children).map some).Nodup := a.map (Option.some_injective _)
  have hle : o.children.length ≤ o.childOrder.length := by
    have := (List.subperm_of_subset hnd hsub2).length_le
    simpa [mapKeys] using this
  refine ⟨o.childOrder, o.children.length, by simp [ChildrenByOrder, hp],
    by simp [ChildCount, hp], fun x => ⟨hsub1 x, hsub2 x⟩, hle, ?_⟩
  intro hnd2
  have := (List.subperm_of_subset hnd2 hsub1).length_le
  simp only [List.length_map, mapKeys] at this
  omega

/-- Witness for `Built_order_ids`: the node "p" to which two nodes with identity "a" were
added has the order identities "a", "a", the single key "a" and `ChildCount()` 1. -/
theorem Built_order_ids_witness :
    (ChildrenByOrder dupTwice 0).map (fun l => l.map (idOf dupTwice)) =
      some [some "a", some "a"] ∧
    ChildCount dupTwice 0 = some 1 ∧
    ∃ l n, ChildrenByOrder dupTwice 0 = some l ∧ ChildCount dupTwice 0 = some n ∧
      (∀ x, x ∈ l.map (idOf dupTwice) ↔ x ∈ (mapKeys [("a", 2)]).map some) ∧
      n ≤ l.length ∧ ((l.map (idOf dupTwice)).Nodup → n = l.length) :=
  ⟨by decide, by decide,
    Built_order_ids dupTwice
      (Built.addChild dupHeap 0 2 0 dupTwice
        (Built.addChild _ 0 1 0 dupHeap
          (Built.newElement _ "item" "a" "" "second"
            (Built.newElement _ "item" "a" "" "first"
              (Built.newElement [] "panel" "p" "" "" Built.empty)))
          (by decide))
        (by decide))
      0 ⟨"", "p", "", [], "panel", [("a", 2)], [1, 2]⟩ (by decide)⟩

/-- C30: for every class string c without leading or trailing white space and every
non-empty token t that contains no white space and is not a substring of c, `AddCssClass(t)`
followed by `RemoveCssClass(t)` returns and restores `Class()` to exactly c. -/
theorem AddCssClass_RemoveCssClass (h : Heap) (he : Ptr) (t : String) (o : UIObject)
    (hp : h[he]? = some o) (hc : TrimSpace o.Class = o.Class) (hne : t.data ≠ [])
    (hfree : ∀ x ∈ t.data, isSpace x = false) (habs : Contains o.Class t = false) :
    ∃ h1 h2, AddCssClass h he t = some h1 ∧ RemoveCssClass h1 he t = some h2 ∧
      classOf h1 he = some (o.Class ++ " " ++ t) ∧ classOf h2 he = some o.Class := by
  have hsp : " ".data = [Char.ofNat 32] := rfl
  have hspace : isSpace (Char.ofNat 32) = true := by decide
  have ht : TrimSpace t = t := by
    apply String.ext
    exact trimL_free t.data hfree
  have hc2 : (o.«class».data.dropWhile isSpace).rdropWhile isSpace = o.«class».data :=
    congrArg String.data hc
  have hni : ¬ t.data <:+: o.«class».data := by
    rw [← Contains_iff]
    simpa [UIObject.Class] using habs
  have hcf : ¬ Contains o.«class» t = true := by
    simpa [UIObject.Class] using habs
  have hget : (h.set he { o with «class» := o.«class» ++ " " ++ t })[he]? =
      some { o with «class» := o.«class» ++ " " ++ t } := by
    simp [List.getElem?_set, lt_of_get hp]
  have hrep : TrimSpace (Replace (o.«class» ++ " " ++ t) t "") = o.«class» := by
    apply String.ext
    simp only [TrimSpace, Replace, if_neg hne, String.data_append, hsp]
    rw [replaceL_only_final t.data hne (o.«class».data ++ [Char.ofNat 32])
      (final_only o.«class».data t.data (Char.ofNat 32) hne hfree hspace hni)]
    exact trimL_append_space o.«class».data (Char.ofNat 32) hspace hc2
  refine ⟨h.set he { o with «class» := o.«class» ++ " " ++ t },
    (h.set he { o with «class» := o.«class» ++ " " ++ t }).set he { o with «class» := o.«class» },
    ?_, ?_, ?_, ?_⟩
  · have hc3 : TrimSpace o.«class» = o.«class» := hc
    simp [AddCssClass, hp, hcf, ht, hc3]
  · simp only [RemoveCssClass, hget, ht, hrep]
  · simp [classOf, hget, UIObject.Class]
  · simp [classOf, List.getElem?_set, lt_of_get hp, UIObject.Class]

/-- Witness for `AddCssClass_RemoveCssClass`: class "strong", token "weak". -/
theorem AddCssClass_RemoveCssClass_witness :
    ∃ h1 h2, AddCssClass testHeap 0 "weak" = some h1 ∧ RemoveCssClass h1 0 "weak" = some h2 ∧
      classOf h1 0 = some ("strong" ++ " " ++ "weak") ∧ classOf h2 0 = some "strong" :=
  AddCssClass_RemoveCssClass testHeap 0 "weak" ⟨"text", "test1", "strong", [], "test", [], []⟩
    (by decide) (by decide) (by decide) (by decide) (by decide)

end goui
